import Mathlib

/-!
Shallow embedding of the nagoya-bus-mcp repository, covering:

* `nagoya_bus_mcp/approach.py` — `_resolve_bus_stop`, `_normalize_route_name`,
  the `ApproachInfo` model with its query methods, and `get_realtime_approach`
  (with the two network fetches abstracted into explicit inputs: the route
  master `KeitoResponse` and the live feed `ApproachFeed`);
* `nagoya_bus_mcp/client.py` — the status / disguised-404 checking performed by
  the `Client` fetch operations, as pure functions of an `HttpResponse`;
* `src/nagoya_bus_mcp/data.py` — `BaseData` lookups and fuzzy
  `find_station_number` (difflib's `SequenceMatcher.ratio` similarity metric is
  a Python-stdlib collaborator and is abstracted as an explicit function
  parameter `sim`; `get_close_matches`' filter/select logic is modelled);
* `src/nagoya_bus_mcp/mcp/tools.py` — `get_station_number` and the
  aggregation / filter / sort logic of `get_approach_for_station`.

Python conventions are modelled explicitly: dicts are insertion-ordered
association lists (`dget?` / `dset`, later assignment overrides), raised
exceptions are `Except` errors (`PyErr`), `str` comparison is code-point
lexicographic (`strLe`), numeric truthiness treats `0` as false (`optTruthy`),
and Python's stable `sorted` is `List.insertionSort`.  Python digit strings are
modelled over ASCII `0`-`9`.
-/

namespace NagoyaBus

/-- Python exceptions raised by the modelled code, distinguished by raise site. -/
inductive PyErr where
  /-- the explicit `ValueError` raised by the length / digit validation in
  `_resolve_bus_stop` (message `bus_stop_code must be at least 5 digits, ...`) -/
  | invalidBusStopCode (code : String)
  /-- the `ValueError` raised by `int()` applied to a non-numeric literal
  (here: the empty string left by `"00000".lstrip("0")`) -/
  | intParseErr
  /-- the `ValueError` raised by `list.index` when the element is absent -/
  | indexErr
  /-- the `KeyError` raised by a dict lookup on a missing key -/
  | keyErr
deriving DecidableEq, Repr

/-! ## Python-style primitives -/

/-- Code-point lexicographic `<=` on char lists, as Python compares `str`. -/
def listCharLe : List Char → List Char → Bool
  | [], _ => true
  | _ :: _, [] => false
  | a :: as, b :: bs =>
    if a.toNat < b.toNat then true
    else if b.toNat < a.toNat then false
    else listCharLe as bs

/-- Code-point lexicographic `<` on char lists, as Python compares `str`. -/
def listCharLt : List Char → List Char → Bool
  | [], [] => false
  | [], _ :: _ => true
  | _ :: _, [] => false
  | a :: as, b :: bs =>
    if a.toNat < b.toNat then true
    else if b.toNat < a.toNat then false
    else listCharLt as bs

/-- Python `a <= b` on strings. -/
def strLe (a b : String) : Bool := listCharLe a.data b.data

/-- Python `a < b` on strings. -/
def strLt (a b : String) : Bool := listCharLt a.data b.data

/-- Lookup in a Python dict modelled as an insertion-ordered association list;
a later binding of the same key overrides an earlier one. -/
def dget? {κ β : Type} [DecidableEq κ] : List (κ × β) → κ → Option β
  | [], _ => none
  | p :: l, k =>
    match dget? l k with
    | some v => some v
    | none => if p.1 = k then some p.2 else none

/-- Python `k in d` on a dict. -/
def dhas {κ β : Type} [DecidableEq κ] (l : List (κ × β)) (k : κ) : Bool :=
  l.any (fun p => decide (p.1 = k))

/-- Python `d[k] = v`: replace the value in place if the key is bound,
otherwise append the new binding. -/
def dset {κ β : Type} [DecidableEq κ] (l : List (κ × β)) (k : κ) (v : β) :
    List (κ × β) :=
  if dhas l k then l.map (fun p => if p.1 = k then (k, v) else p)
  else l ++ [(k, v)]

/-- Python `list.index` returning the first index of an element, `none` in
place of the `ValueError` raised on a missing element. -/
def listIndex? {α : Type} [DecidableEq α] : List α → α → Option Nat
  | [], _ => none
  | x :: xs, a => if x = a then some 0 else (listIndex? xs a).map (· + 1)

/-- Python truthiness of an optional integer: both `None` and `0` are falsy. -/
def optTruthy (o : Option Nat) : Option Nat :=
  match o with
  | some 0 => none
  | _ => o

/-- `Except`-valued left fold: the loop body of a Python `for` that may raise. -/
def foldSteps {σ α ε : Type} (step : σ → α → Except ε σ) : σ → List α → Except ε σ
  | s, [] => .ok s
  | s, e :: es =>
    match step s e with
    | .error err => .error err
    | .ok s' => foldSteps step s' es

/-- Decimal digit characters `'0'`-`'9'` (only meaningful for `d < 10`). -/
def digitChar (d : Nat) : Char :=
  match d with
  | 0 => '0' | 1 => '1' | 2 => '2' | 3 => '3' | 4 => '4'
  | 5 => '5' | 6 => '6' | 7 => '7' | 8 => '8' | _ => '9'

/-- Little-endian decimal digits of `n`, structurally recursive in a fuel
argument so the kernel can evaluate it (`fuel ≥ n` suffices). -/
def natDigitsAux : Nat → Nat → List Nat
  | 0, _ => []
  | _ + 1, 0 => []
  | fuel + 1, n + 1 => (n + 1) % 10 :: natDigitsAux fuel ((n + 1) / 10)

/-- Decimal representation of `n` as characters; empty for `0` (which is fine
here: it is only used under zero-padding or for positive numbers). -/
def natDecimalChars (n : Nat) : List Char :=
  ((natDigitsAux n n).map digitChar).reverse

/-- Python `f"{n:05}"`: decimal representation zero-padded to width 5. -/
def pad5chars (n : Nat) : List Char :=
  List.replicate (5 - (natDecimalChars n).length) '0' ++ natDecimalChars n

/-- Value of a big-endian list of decimal digit characters. -/
def digitsVal (cs : List Char) : Nat :=
  cs.foldl (fun a c => 10 * a + (c.toNat - 48)) 0

/-- Python `int(s)` on a string expected to hold decimal digits: raises
`ValueError` on the empty string or a non-digit character. -/
def intOfChars (cs : List Char) : Except PyErr Nat :=
  if cs ≠ [] ∧ cs.all Char.isDigit then .ok (digitsVal cs) else .error .intParseErr

/-- Python `s.lstrip("0")`. -/
def lstrip0 (cs : List Char) : List Char :=
  cs.dropWhile (fun c => decide (c = '0'))

/-- Python substring test `needle in hay`. -/
def containsSubstr (hay needle : String) : Bool :=
  decide (needle.data <:+: hay.data)

/-- Python `s.replace("/", "")`. -/
def removeSlash (s : String) : String := ⟨s.data.filter (fun c => decide (c ≠ '/'))⟩

/-! ## Base reference data (`data.py`) -/

/-- `BaseData` state: the station-name table (name → number) and the pole
table (bus-stop code → pole name), both insertion-ordered dicts. -/
structure BaseData where
  stationNames : List (String × Nat)
  poleNames : List (String × String)

/-- `BaseData.get_pole_name`. -/
def BaseData.get_pole_name (d : BaseData) (code : String) : Option String :=
  dget? d.poleNames code

/-- `BaseData.get_station_number`. -/
def BaseData.get_station_number (d : BaseData) (name : String) : Option Nat :=
  dget? d.stationNames name

/-- `BaseData.get_station_name`: lookup in the reversed dict
`{num: name for name, num in stations.items()}`. -/
def BaseData.get_station_name (d : BaseData) (number : Nat) : Option String :=
  dget? (d.stationNames.map (fun p => (p.2, p.1))) number

/-- Dict key enumeration order: first occurrence of each key, in order. -/
def dedupKeys : List String → List String
  | [] => []
  | x :: xs => x :: (dedupKeys xs).filter (fun y => decide (y ≠ x))

/-- `heapq.nlargest(1, scored)` on `(ratio, word)` pairs: the maximum under
lexicographic tuple comparison, the first one encountered on exact ties. -/
def pickLargest : List (ℚ × String) → Option (ℚ × String)
  | [] => none
  | p :: rest =>
    match pickLargest rest with
    | none => some p
    | some q => if p.1 < q.1 ∨ (p.1 = q.1 ∧ strLt p.2 q.2) then some q else some p

/-- `BaseData.find_station_number`: `difflib.get_close_matches(name, keys, n=1,
cutoff)` followed by a table lookup of the matched name.  The similarity
metric (`SequenceMatcher.ratio`, Ratcliff/Obershelp) is stdlib code, abstracted
as the parameter `sim`; `get_close_matches` keeps the candidates scoring at
least `cutoff` and picks the largest `(score, word)` pair. -/
def BaseData.find_station_number (d : BaseData) (sim : String → String → ℚ)
    (name : String) (cutoff : ℚ) : Option Nat :=
  match pickLargest ((dedupKeys (d.stationNames.map (·.1))).filterMap
      (fun x => if cutoff ≤ sim x name then some (sim x name, x) else none)) with
  | some p => dget? d.stationNames p.2
  | none => none

/-! ## Approach data model (`approach.py`) -/

/-- `ApproachBusStop` pydantic model. -/
structure ApproachBusStop where
  bus_stop_code : String
  station_number : Nat
  station_name : String
  pole : String
deriving DecidableEq, Repr

/-- `ApproachPosition` pydantic model. -/
structure ApproachPosition where
  car_code : String
  previous_stop : ApproachBusStop
  passed_time : String
  next_stop : ApproachBusStop
deriving DecidableEq, Repr

/-- `ApproachInfo` pydantic model; `latest_passes` is a dict keyed by
previous-stop code. -/
structure ApproachInfo where
  route : String
  direction : String
  bus_stops : List ApproachBusStop
  latest_passes : List (String × ApproachPosition)
  current_positions : List ApproachPosition
deriving DecidableEq, Repr

/-- Loop body of `ApproachInfo._get_index_for_code`: first index whose stop
has the given code. -/
def getIndexForCodeAux (code : String) : List ApproachBusStop → Option Nat
  | [] => none
  | b :: bs =>
    if b.bus_stop_code = code then some 0
    else (getIndexForCodeAux code bs).map (· + 1)

/-- `ApproachInfo._get_index_for_code`. -/
def ApproachInfo.get_index_for_code (info : ApproachInfo) (code : String) :
    Option Nat :=
  getIndexForCodeAux code info.bus_stops

/-- `ApproachInfo.get_last_pass_time_for_code`. -/
def ApproachInfo.get_last_pass_time_for_code (info : ApproachInfo)
    (code : String) : Option String :=
  match dget? info.latest_passes code with
  | some r => some r.passed_time
  | none => none

/-- `ApproachInfo.get_bus_stop_for_code`. -/
def ApproachInfo.get_bus_stop_for_code (info : ApproachInfo) (code : String) :
    Option ApproachBusStop :=
  match info.get_index_for_code code with
  | none => none
  | some i => info.bus_stops[i]?

/-- Loop of `ApproachInfo.get_current_positions_before_code`: for each current
position, `bus_stops.index(position.previous_stop)` (raising on a foreign
stop), keeping `(target - index, position)` when the index is before the
target. -/
def collectPositionsBefore (stops : List ApproachBusStop) (t : Nat) :
    List ApproachPosition → Except PyErr (List (Nat × ApproachPosition))
  | [] => .ok []
  | p :: rest =>
    match listIndex? stops p.previous_stop with
    | none => .error .indexErr
    | some i =>
      match collectPositionsBefore stops t rest with
      | .error e => .error e
      | .ok l => .ok (if i < t then (t - i, p) :: l else l)

/-- `ApproachInfo.get_current_positions_before_code`. -/
def ApproachInfo.get_current_positions_before_code (info : ApproachInfo)
    (code : String) : Except PyErr (List (Nat × ApproachPosition)) :=
  match info.get_index_for_code code with
  | none => .ok []
  | some t => collectPositionsBefore info.bus_stops t info.current_positions

/-- `_resolve_bus_stop`: validate the code shape, extract the station number
from the zero-stripped 5-digit prefix, and resolve names with sentinel
fallbacks (Python `or` treats the empty string as falsy). -/
def resolveBusStop (base : BaseData) (code : String) : Except PyErr ApproachBusStop :=
  let cs := code.data
  if cs.length < 5 ∨ ¬ ((cs.take 5).all Char.isDigit) then
    .error (.invalidBusStopCode code)
  else
    match intOfChars (lstrip0 (cs.take 5)) with
    | .error e => .error e
    | .ok station_number =>
      .ok { bus_stop_code := code
            station_number := station_number
            station_name :=
              match base.get_station_name station_number with
              | some s => if s = "" then "不明なバス停" else s
              | none => "不明なバス停"
            pole :=
              match base.get_pole_name code with
              | some s => if s = "" then "不明なのりば" else s
              | none => "不明なのりば" }

/-- `_ROUTE_NAME_TRANSLATION_TABLE`: full-width digits, `Ｃ` and `－` mapped
to their ASCII counterparts. -/
def routeNameMap : List (Char × Char) :=
  [('１', '1'), ('２', '2'), ('３', '3'), ('４', '4'), ('５', '5'),
   ('６', '6'), ('７', '7'), ('８', '8'), ('９', '9'), ('０', '0'),
   ('Ｃ', 'C'), ('－', '-')]

/-- Per-character action of `str.translate` under the route-name table. -/
def translateChar (c : Char) : Char :=
  match routeNameMap.find? (fun p => decide (p.1 = c)) with
  | some p => p.2
  | none => c

/-- `_normalize_route_name`. -/
def normalizeRouteName (s : String) : String := ⟨s.data.map translateChar⟩

/-- Route master data used by `get_realtime_approach` (`KeitoResponse`); the
Python fields `FROM` / `TO` are `from_` / `to_` here (`to` is reserved). -/
structure KeitoResponse where
  name : String
  from_ : String
  to_ : String
  article : String
  busstops : List String
deriving DecidableEq, Repr

/-- The live approach feed (`ApproachInfoResponse`): both sections map a
`station/pole` key to `car code → time` pairs; dicts are modelled as
insertion-ordered lists. -/
structure ApproachFeed where
  latest_bus_pass : List (String × List (String × String))
  current_bus_positions : List (String × List (String × String))
deriving DecidableEq, Repr

/-- List-comprehension `[_resolve_bus_stop(base_data, code) for code in codes]`. -/
def resolveAll (base : BaseData) : List String → Except PyErr (List ApproachBusStop)
  | [] => .ok []
  | c :: cs =>
    match resolveBusStop base c with
    | .error e => .error e
    | .ok b =>
      match resolveAll base cs with
      | .error e => .error e
      | .ok bs => .ok (b :: bs)

/-- The dict comprehension `{bus_stop.bus_stop_code: bus_stop for ...}`. -/
def c2bOf (bus_stops : List ApproachBusStop) (code : String) :
    Option ApproachBusStop :=
  dget? (bus_stops.map (fun b => (b.bus_stop_code, b))) code

/-- The guard `previous_stop_id in latest_passes and
latest_passes[previous_stop_id].passed_time >= passed_time`. -/
def latestPassKeep (m : List (String × ApproachPosition)) (prev_id : String)
    (t : String) : Bool :=
  match dget? m prev_id with
  | some r => strLe t r.passed_time
  | none => false

/-- One `car_code, passed_time` iteration of the latest-pass loop: either skip
(kept record is at least as recent) or build an `ApproachPosition` (dict
lookups may raise `KeyError`) and store it under the previous-stop code. -/
def latestPassUpdate (c2b : String → Option ApproachBusStop)
    (prev_id next_id : String) (m : List (String × ApproachPosition))
    (ct : String × String) : Except PyErr (List (String × ApproachPosition)) :=
  if latestPassKeep m prev_id ct.2 then .ok m
  else
    match c2b prev_id, c2b next_id with
    | some prevStop, some nextStop =>
      .ok (dset m prev_id
        { car_code := ct.1, previous_stop := prevStop,
          passed_time := ct.2, next_stop := nextStop })
    | _, _ => .error .keyErr

/-- One `station_pole_with_slash, passed_cars` iteration of the latest-pass
loop of `get_realtime_approach`: normalise the key, locate the next stop in the
sequence (`list.index` raises when absent), skip index 0 (logged only), and
fold the car/time pairs. -/
def latestStep (codes : List String) (c2b : String → Option ApproachBusStop)
    (m : List (String × ApproachPosition))
    (entry : String × List (String × String)) :
    Except PyErr (List (String × ApproachPosition)) :=
  match listIndex? codes (removeSlash entry.1) with
  | none => .error .indexErr
  | some idx =>
    if idx = 0 then .ok m
    else foldSteps
      (latestPassUpdate c2b (codes.getD (idx - 1) "") (removeSlash entry.1))
      m entry.2

/-- One `car_code, passed_time` iteration of the current-position loop: every
event is appended (no collapsing). -/
def currentAppend (c2b : String → Option ApproachBusStop)
    (prev_id next_id : String) (acc : List ApproachPosition)
    (ct : String × String) : Except PyErr (List ApproachPosition) :=
  match c2b prev_id, c2b next_id with
  | some prevStop, some nextStop =>
    .ok (acc ++ [{ car_code := ct.1, previous_stop := prevStop,
                   passed_time := ct.2, next_stop := nextStop }])
  | _, _ => .error .keyErr

/-- One `station_pole_with_slash, passed_cars` iteration of the
current-position loop of `get_realtime_approach`. -/
def currentStep (codes : List String) (c2b : String → Option ApproachBusStop)
    (acc : List ApproachPosition) (entry : String × List (String × String)) :
    Except PyErr (List ApproachPosition) :=
  match listIndex? codes (removeSlash entry.1) with
  | none => .error .indexErr
  | some idx =>
    if idx = 0 then .ok acc
    else foldSteps
      (currentAppend c2b (codes.getD (idx - 1) "") (removeSlash entry.1))
      acc entry.2

/-- `get_realtime_approach`, with the two fetches (`client.get_keito`,
`client.get_realtime_approach`) abstracted into the inputs `keito` and `feed`. -/
def get_realtime_approach (base : BaseData) (keito : KeitoResponse)
    (feed : ApproachFeed) : Except PyErr ApproachInfo :=
  match resolveAll base keito.busstops with
  | .error e => .error e
  | .ok bus_stops =>
    match foldSteps (latestStep keito.busstops (c2bOf bus_stops)) []
        feed.latest_bus_pass with
    | .error e => .error e
    | .ok latest =>
      match foldSteps (currentStep keito.busstops (c2bOf bus_stops)) []
          feed.current_bus_positions with
      | .error e => .error e
      | .ok current =>
        .ok { route := normalizeRouteName keito.name
              direction :=
                if keito.article ≠ "" then
                  keito.from_ ++ "発 " ++ keito.article ++ " " ++ keito.to_ ++ "行き"
                else
                  keito.from_ ++ "発 " ++ keito.to_ ++ "行き"
              bus_stops := bus_stops
              latest_passes := latest
              current_positions := current }

/-! ## Gateway response checking (`client.py`) -/

/-- An upstream HTTP response as seen by the `Client` checks: status code,
`content-type` header and body (bytes modelled as a string). -/
structure HttpResponse where
  status : Nat
  contentType : String
  body : String
deriving DecidableEq, Repr

/-- Errors surfaced by the `Client` transport layer. -/
inductive ClientError where
  /-- `httpx.Response.raise_for_status` on a non-2xx status -/
  | statusError (status : Nat)
  /-- the `httpx.HTTPStatusError` raised by `Client._check_404`, carrying its
  message text verbatim -/
  | notFoundError (msg : String)
deriving DecidableEq, Repr

/-- `response.raise_for_status()`: any non-2xx status raises. -/
def raiseForStatus (r : HttpResponse) : Except ClientError Unit :=
  if 200 ≤ r.status ∧ r.status < 300 then .ok () else .error (.statusError r.status)

/-- `Client._check_404`: an HTML response whose body contains the upstream's
literal `404 NotFound` marker is raised as `404 Not Found`. -/
def check404 (r : HttpResponse) : Except ClientError Unit :=
  if containsSubstr r.contentType "text/html" ∧ containsSubstr r.body "404 NotFound"
  then .error (.notFoundError "404 Not Found")
  else .ok ()

/-- The response checking performed by `Client.get_station_names`:
`raise_for_status` only — no disguised-404 sniffing. -/
def stationNamesChecks (r : HttpResponse) : Except ClientError Unit :=
  raiseForStatus r

/-- The response checking performed by `Client.get_station_diagram`. -/
def stationDiagramChecks (r : HttpResponse) : Except ClientError Unit :=
  match raiseForStatus r with
  | .error e => .error e
  | .ok _ => check404 r

/-- The response checking performed by `Client.get_bus_stops`. -/
def busStopsChecks (r : HttpResponse) : Except ClientError Unit :=
  match raiseForStatus r with
  | .error e => .error e
  | .ok _ => check404 r

/-- The response checking performed by `Client.get_keitos`. -/
def keitosChecks (r : HttpResponse) : Except ClientError Unit :=
  match raiseForStatus r with
  | .error e => .error e
  | .ok _ => check404 r

/-- The response checking performed by `Client.get_realtime_approach`. -/
def realtimeApproachChecks (r : HttpResponse) : Except ClientError Unit :=
  match raiseForStatus r with
  | .error e => .error e
  | .ok _ => check404 r

/-! ## Tool layer (`mcp/tools.py`) -/

/-- `StationNumberResponse` pydantic model. -/
structure StationNumberResponse where
  station_name : String
  station_number : Nat
deriving DecidableEq, Repr

/-- `get_station_number` tool: exact table lookup first, fuzzy matching at
cutoff 0.6 second, `ToolError` otherwise.  Both walrus-`if` guards use Python
truthiness (`optTruthy`), and errors are `Except.error` with the message text. -/
def get_station_number_tool (sim : String → String → ℚ) (d : BaseData)
    (station_name : String) : Except String StationNumberResponse :=
  match optTruthy (d.get_station_number station_name) with
  | some n => .ok { station_name := station_name, station_number := n }
  | none =>
    match optTruthy (d.find_station_number sim station_name (3 / 5)) with
    | some n =>
      match d.get_station_name n with
      | none => .error "Inconsistent base data: station number has no name"
      | some closest => .ok { station_name := closest, station_number := n }
    | none => .error ("Station not found: " ++ station_name)

/-- `_MAX_SORT_KEY`. -/
def MAX_SORT_KEY : Nat := 2 ^ 32 - 1

/-- `ApproachingBusForStationRoute` pydantic model. -/
structure ApproachingBusForStationRoute where
  location : String
  previous_station_name : String
  pass_time : String
deriving DecidableEq, Repr

/-- `ApproachForStationRoute` pydantic model. -/
structure ApproachForStationRoute where
  route : String
  route_code : String
  direction : String
  pole : String
  last_pass_time : Option String
  approaching_buses : List ApproachingBusForStationRoute
deriving DecidableEq, Repr

/-- `f"{station_number:05}{pole_code}"`: the pole's full bus-stop code. -/
def stationBusStopCode (station_number : Nat) (pole_code : String) : String :=
  ⟨pad5chars station_number ++ pole_code.data⟩

/-- The `ApproachingBusForStationRoute` built for one qualifying current
position: `f"{n}停前を通過"`, previous-stop name, pass time. -/
def approachingBusOf (p : Nat × ApproachPosition) : ApproachingBusForStationRoute :=
  { location := (⟨natDecimalChars p.1⟩ : String) ++ "停前を通過"
    previous_station_name := p.2.previous_stop.station_name
    pass_time := p.2.passed_time }

/-- One `(route_code, pole_code), approach_info` iteration of the
`get_approach_for_station` loop: compute the pole's bus-stop code, the
proximity sort key (minimum stops-before count, sentinel when no approaching
bus), the approaching-bus descriptions, and the last pass time; entries with
neither a last pass time nor an approaching bus are dropped (`ok none`). -/
def processStationRoute (station_number : Nat) (route_code pole_code : String)
    (info : ApproachInfo) :
    Except PyErr (Option (Nat × ApproachForStationRoute)) :=
  match info.get_current_positions_before_code
      (stationBusStopCode station_number pole_code) with
  | .error e => .error e
  | .ok positions_before =>
    if info.get_last_pass_time_for_code
          (stationBusStopCode station_number pole_code) = none ∧
        positions_before.map approachingBusOf = []
    then .ok none
    else .ok (some (positions_before.foldl (fun k p => min k p.1) MAX_SORT_KEY,
      { route := info.route
        route_code := route_code
        direction := info.direction
        pole := match info.get_bus_stop_for_code
                    (stationBusStopCode station_number pole_code) with
                | some b => b.pole
                | none => "不明なのりば"
        last_pass_time := info.get_last_pass_time_for_code
          (stationBusStopCode station_number pole_code)
        approaching_buses := positions_before.map approachingBusOf }))

/-- The collection loop of `get_approach_for_station` over the fanned-out
`(route_code, pole_code, approach_info)` triples, in order. -/
def collectStationRoutes (station_number : Nat) :
    List (String × String × ApproachInfo) →
    Except PyErr (List (Nat × ApproachForStationRoute))
  | [] => .ok []
  | e :: es =>
    match processStationRoute station_number e.1 e.2.1 e.2.2 with
    | .error err => .error err
    | .ok none => collectStationRoutes station_number es
    | .ok (some kr) =>
      match collectStationRoutes station_number es with
      | .error err => .error err
      | .ok l => .ok (kr :: l)

/-- `sorted(approaches, key=itemgetter(0))`: Python's sort is stable, modelled
by the stable `List.insertionSort` on the first component. -/
def stationApproachesKeyed (station_number : Nat)
    (entries : List (String × String × ApproachInfo)) :
    Except PyErr (List (Nat × ApproachForStationRoute)) :=
  match collectStationRoutes station_number entries with
  | .error e => .error e
  | .ok collected => .ok (List.insertionSort (fun a b => a.1 ≤ b.1) collected)

/-- The `routes` list returned by `get_approach_for_station`: the sorted
survivors with the sort keys dropped. -/
def get_approach_for_station_routes (station_number : Nat)
    (entries : List (String × String × ApproachInfo)) :
    Except PyErr (List ApproachForStationRoute) :=
  (stationApproachesKeyed station_number entries).map (fun l => l.map (·.2))

/-! ## Specification-side helper definitions

These are not translations of repository code; they are executable
reformulations used to state properties of the folds above. -/

/-- One step of the running lexicographic maximum of passed times, mirroring
the keep/replace logic of the latest-pass loop (ties keep the left value). -/
def stepMaxTime (o : Option String) (t : String) : Option String :=
  match o with
  | none => some t
  | some s => if strLe t s then some s else some t

/-- Running lexicographic maximum of a list of passed times. -/
def runMaxTime (o : Option String) (ts : List String) : Option String :=
  ts.foldl stepMaxTime o

/-- All passed times of latest-pass feed events that resolve (via slash
removal, `list.index` on the stop sequence, and stepping back one stop) to the
previous-stop code `p`, in feed order. -/
def timesForPrev (codes : List String) (p : String)
    (feed : List (String × List (String × String))) : List String :=
  feed.foldr (fun e acc =>
    (match listIndex? codes (removeSlash e.1) with
     | some idx => if idx ≠ 0 ∧ codes.getD (idx - 1) "" = p then e.2.map (·.2) else []
     | none => []) ++ acc) []

/-- The feed with every event whose next-stop key resolves to index 0 of the
stop sequence removed. -/
def dropFirstStopEvents (codes : List String)
    (l : List (String × List (String × String))) :
    List (String × List (String × String)) :=
  l.filter (fun e => decide (¬ (listIndex? codes (removeSlash e.1) = some 0)))

/-! ## Basic lemmas about the Python-style primitives -/

theorem listCharLe_refl (l : List Char) : listCharLe l l = true := by
  induction l with
  | nil => rfl
  | cons a as ih => simp [listCharLe, ih]

theorem listCharLe_total (a b : List Char) :
    listCharLe a b = true ∨ listCharLe b a = true := by
  induction a generalizing b with
  | nil => left; rfl
  | cons x xs ih =>
    cases b with
    | nil => right; rfl
    | cons y ys =>
      by_cases hxy : x.toNat < y.toNat
      · left; simp [listCharLe, hxy]
      · by_cases hyx : y.toNat < x.toNat
        · right; simp [listCharLe, hyx]
        · rcases ih ys with h | h
          · left; simp [listCharLe, hxy, hyx, h]
          · right; simp [listCharLe, hxy, hyx, h]

theorem listCharLe_trans {a b c : List Char} (hab : listCharLe a b = true)
    (hbc : listCharLe b c = true) : listCharLe a c = true := by
  induction a generalizing b c with
  | nil => rfl
  | cons x xs ih =>
    cases b with
    | nil => simp [listCharLe] at hab
    | cons y ys =>
      cases c with
      | nil => simp [listCharLe] at hbc
      | cons z zs =>
        simp only [listCharLe] at hab hbc ⊢
        split at hab
        · next hxy =>
          split
          · rfl
          · next hxz =>
            split
            · next hzx =>
              exfalso
              split at hbc
              · next hyz => omega
              · split at hbc
                · simp at hbc
                · next => omega
            · split at hbc
              · next hyz => omega
              · split at hbc
                · simp at hbc
                · next h1 h2 => omega
        · split at hab
          · simp at hab
          · next hxy hyx =>
            have hxyeq : x.toNat = y.toNat := by omega
            split at hbc
            · next hyz => simp [hxyeq, hyz]
            · split at hbc
              · simp at hbc
              · next h1 h2 =>
                have hyzeq : y.toNat = z.toNat := by omega
                simp only [hxyeq, hyzeq, lt_irrefl, if_false, if_neg]
                simpa [hxyeq, hyzeq] using ih hab hbc

theorem strLe_refl (s : String) : strLe s s = true := listCharLe_refl _

theorem strLe_total (a b : String) : strLe a b = true ∨ strLe b a = true :=
  listCharLe_total _ _

theorem strLe_trans {a b c : String} (hab : strLe a b = true)
    (hbc : strLe b c = true) : strLe a c = true :=
  listCharLe_trans hab hbc

theorem dget?_eq_none_iff {κ β : Type} [DecidableEq κ]
    {l : List (κ × β)} {k : κ} : dget? l k = none ↔ ∀ p ∈ l, p.1 ≠ k := by
  induction l with
  | nil => simp [dget?]
  | cons p l ih =>
    simp only [dget?, List.mem_cons]
    cases h : dget? l k with
    | some v =>
      simp only [reduceCtorEq, false_iff]
      intro hall
      rw [ih.mpr (fun q hq => hall q (Or.inr hq))] at h
      exact absurd h (by simp)
    | none =>
      constructor
      · intro hnone q hq
        rcases hq with rfl | hq
        · intro hk; simp [hk] at hnone
        · exact ih.mp h q hq
      · intro hall
        simp [hall p (Or.inl rfl)]

theorem dget?_mem {κ β : Type} [DecidableEq κ] {l : List (κ × β)} {k : κ}
    {v : β} (h : dget? l k = some v) : (k, v) ∈ l := by
  induction l with
  | nil => simp [dget?] at h
  | cons p l ih =>
    simp only [dget?] at h
    split at h
    · next w hw =>
      cases h
      exact List.mem_cons_of_mem _ (ih hw)
    · next hw =>
      by_cases hk : p.1 = k
      · rw [if_pos hk] at h
        cases h
        have hp : p = (k, p.2) := by
          cases p
          cases hk
          rfl
        rw [← hp]
        exact List.mem_cons_self _ _
      · rw [if_neg hk] at h
        cases h

theorem dget?_isSome_of_mem {κ β : Type} [DecidableEq κ] {l : List (κ × β)}
    {k : κ} (h : ∃ p ∈ l, p.1 = k) : ∃ v, dget? l k = some v := by
  cases hg : dget? l k with
  | some v => exact ⟨v, rfl⟩
  | none =>
    obtain ⟨p, hp, hk⟩ := h
    exact absurd hk (dget?_eq_none_iff.mp hg p hp)

theorem dget?_map_replace {κ β : Type} [DecidableEq κ] {l : List (κ × β)}
    {k : κ} (v : β) (h : ∃ p ∈ l, p.1 = k) :
    dget? (l.map (fun p => if p.1 = k then (k, v) else p)) k = some v := by
  induction l with
  | nil => simp at h
  | cons q l ih =>
    simp only [List.map_cons, dget?]
    by_cases hl : ∃ p ∈ l, p.1 = k
    · rw [ih hl]
    · have hnone : dget? (l.map (fun p => if p.1 = k then (k, v) else p)) k
          = none := by
        rw [dget?_eq_none_iff]
        intro q' hq'
        rw [List.mem_map] at hq'
        obtain ⟨p, hp, hfp⟩ := hq'
        have hpk : ¬ p.1 = k := fun hpk => hl ⟨p, hp, hpk⟩
        rw [if_neg hpk] at hfp
        rw [← hfp]
        exact hpk
      rw [hnone]
      have hqk : q.1 = k := by
        obtain ⟨p, hp, hpk⟩ := h
        rcases List.mem_cons.mp hp with rfl | hp'
        · exact hpk
        · exact absurd ⟨p, hp', hpk⟩ hl
      rw [if_pos hqk]
      simp

theorem dget?_append_single {κ β : Type} [DecidableEq κ] (l : List (κ × β))
    (k : κ) (v : β) : dget? (l ++ [(k, v)]) k = some v := by
  induction l with
  | nil => simp [dget?]
  | cons q l ih =>
    simp only [List.cons_append, dget?, List.append_eq, ih]

theorem dhas_iff {κ β : Type} [DecidableEq κ] {l : List (κ × β)} {k : κ} :
    dhas l k = true ↔ ∃ p ∈ l, p.1 = k := by
  unfold dhas
  rw [List.any_eq_true]
  simp

theorem dget?_dset_self {κ β : Type} [DecidableEq κ] (l : List (κ × β))
    (k : κ) (v : β) : dget? (dset l k v) k = some v := by
  unfold dset
  by_cases h : dhas l k = true
  · rw [if_pos h]
    exact dget?_map_replace v (dhas_iff.mp h)
  · rw [if_neg h]
    exact dget?_append_single l k v

theorem dget?_map_replace_ne {κ β : Type} [DecidableEq κ] {l : List (κ × β)}
    {k k' : κ} (v : β) (hne : k' ≠ k) :
    dget? (l.map (fun p => if p.1 = k then (k, v) else p)) k' = dget? l k' := by
  induction l with
  | nil => rfl
  | cons q l ih =>
    simp only [List.map_cons, dget?, ih]
    cases hd : dget? l k' with
    | some w => rfl
    | none =>
      by_cases hq : q.1 = k
      · rw [if_pos hq]
        have h1 : ¬ ((k, v).1 = k') := Ne.symm hne
        have h2 : ¬ (q.1 = k') := by rw [hq]; exact Ne.symm hne
        simp only [h1, h2, if_false]
      · rw [if_neg hq]

theorem dget?_append_single_ne {κ β : Type} [DecidableEq κ] (l : List (κ × β))
    {k k' : κ} (v : β) (hne : k' ≠ k) :
    dget? (l ++ [(k, v)]) k' = dget? l k' := by
  induction l with
  | nil => simp [dget?, Ne.symm hne]
  | cons q l ih =>
    simp only [List.cons_append, dget?, List.append_eq, ih]

theorem dget?_dset_ne {κ β : Type} [DecidableEq κ] (l : List (κ × β))
    (k k' : κ) (v : β) (hne : k' ≠ k) : dget? (dset l k v) k' = dget? l k' := by
  unfold dset
  by_cases h : dhas l k = true
  · rw [if_pos h]
    exact dget?_map_replace_ne v hne
  · rw [if_neg h]
    exact dget?_append_single_ne l v hne

theorem dset_keys_nodup {κ β : Type} [DecidableEq κ] {l : List (κ × β)}
    (h : (l.map Prod.fst).Nodup) (k : κ) (v : β) :
    ((dset l k v).map Prod.fst).Nodup := by
  unfold dset
  by_cases hh : dhas l k = true
  · rw [if_pos hh]
    have : ((l.map fun p => if p.1 = k then (k, v) else p).map Prod.fst)
        = l.map Prod.fst := by
      rw [List.map_map]
      apply List.map_congr_left
      intro p _
      by_cases hp : p.1 = k
      · simp [hp]
      · simp [hp]
    rw [this]
    exact h
  · rw [if_neg hh]
    rw [List.map_append]
    simp only [List.map_cons, List.map_nil]
    rw [List.nodup_append]
    refine ⟨h, List.nodup_singleton _, ?_⟩
    intro x hx hk
    simp only [List.mem_singleton] at hk
    subst hk
    rw [List.mem_map] at hx
    obtain ⟨p, hp, hpk⟩ := hx
    exact hh (List.any_eq_true.mpr ⟨p, hp, by simp [hpk]⟩)

theorem listIndex?_some {α : Type} [DecidableEq α] {l : List α} {a : α}
    {i : Nat} (h : listIndex? l a = some i) : l[i]? = some a := by
  induction l generalizing i with
  | nil => simp [listIndex?] at h
  | cons x xs ih =>
    simp only [listIndex?] at h
    by_cases hx : x = a
    · rw [if_pos hx] at h
      cases h
      simp [hx]
    · rw [if_neg hx] at h
      cases hrec : listIndex? xs a with
      | none => rw [hrec] at h; simp at h
      | some j =>
        rw [hrec] at h
        simp only [Option.map_some', Option.some.injEq] at h
        subst h
        simpa using ih hrec

theorem listIndex?_eq_none_iff {α : Type} [DecidableEq α] {l : List α}
    {a : α} : listIndex? l a = none ↔ a ∉ l := by
  induction l with
  | nil => simp [listIndex?]
  | cons x xs ih =>
    simp only [listIndex?, List.mem_cons]
    by_cases hx : x = a
    · simp [hx]
    · cases hrec : listIndex? xs a with
      | none =>
        simp only [if_neg hx, hrec, Option.map_none', true_iff]
        push_neg
        exact ⟨fun h => hx h.symm, ih.mp hrec⟩
      | some j =>
        simp only [if_neg hx, hrec, Option.map_some', reduceCtorEq, false_iff,
          not_not]
        have hmem : a ∈ xs := by
          by_contra hn
          rw [ih.mpr hn] at hrec
          exact absurd hrec (by simp)
        exact Or.inr hmem

theorem getIndexForCodeAux_some {code : String} {stops : List ApproachBusStop}
    {i : Nat} (h : getIndexForCodeAux code stops = some i) :
    ∃ b, stops[i]? = some b ∧ b.bus_stop_code = code := by
  induction stops generalizing i with
  | nil => simp [getIndexForCodeAux] at h
  | cons b bs ih =>
    simp only [getIndexForCodeAux] at h
    by_cases hb : b.bus_stop_code = code
    · rw [if_pos hb] at h
      cases h
      exact ⟨b, by simp, hb⟩
    · rw [if_neg hb] at h
      cases hrec : getIndexForCodeAux code bs with
      | none => rw [hrec] at h; simp at h
      | some j =>
        rw [hrec] at h
        simp only [Option.map_some', Option.some.injEq] at h
        subst h
        obtain ⟨b', hb', hcode⟩ := ih hrec
        exact ⟨b', by simpa using hb', hcode⟩

/-! ## Route-name normalization (claim C9) -/

theorem translateChar_not_domain {c : Char}
    (h : ∀ p ∈ routeNameMap, p.1 ≠ c) : translateChar c = c := by
  unfold translateChar
  cases hf : routeNameMap.find? (fun p => decide (p.1 = c)) with
  | none => rfl
  | some p =>
    have hmem := List.mem_of_find?_eq_some hf
    have hpc := List.find?_some hf
    rw [decide_eq_true_eq] at hpc
    exact absurd hpc (h p hmem)

theorem translateChar_out_fixed : ∀ p ∈ routeNameMap, translateChar p.2 = p.2 := by
  decide

theorem translateChar_idem (c : Char) :
    translateChar (translateChar c) = translateChar c := by
  by_cases hf : ∃ p ∈ routeNameMap, p.1 = c
  · obtain ⟨p, hp, hpc⟩ := hf
    have h1 : translateChar c = p.2 := by
      unfold translateChar
      cases hfind : routeNameMap.find? (fun p => decide (p.1 = c)) with
      | none =>
        rw [List.find?_eq_none] at hfind
        exact absurd (by simp [hpc]) (hfind p hp)
      | some q =>
        have hqmem := List.mem_of_find?_eq_some hfind
        have hqc := List.find?_some hfind
        rw [decide_eq_true_eq] at hqc
        have hinj : ∀ q ∈ routeNameMap, ∀ p ∈ routeNameMap, q.1 = p.1 → q = p := by
          decide
        have hq1 : q.1 = p.1 := by rw [hqc, hpc]
        rw [hinj q hqmem p hp hq1]
    rw [h1]
    exact translateChar_out_fixed p hp
  · push_neg at hf
    rw [translateChar_not_domain hf, translateChar_not_domain hf]

theorem normalizeRouteName_data (s : String) :
    (normalizeRouteName s).data = s.data.map translateChar := rfl

/-- C9 — `_normalize_route_name` translates exactly the mapped full-width
characters, fixes every other character, is idempotent, fixes ASCII-only
strings, and satisfies the three concrete examples from the spec. -/
theorem C9_route_name_normalization :
    (∀ p ∈ routeNameMap, translateChar p.1 = p.2) ∧
    (∀ c : Char, (∀ p ∈ routeNameMap, p.1 ≠ c) → translateChar c = c) ∧
    (∀ s : String, (normalizeRouteName s).data = s.data.map translateChar) ∧
    (∀ s : String, normalizeRouteName (normalizeRouteName s) = normalizeRouteName s) ∧
    (∀ s : String, (∀ c ∈ s.data, c.toNat < 128) → normalizeRouteName s = s) ∧
    normalizeRouteName "栄２３" = "栄23" ∧
    normalizeRouteName "Ｃ－７５８" = "C-758" ∧
    normalizeRouteName "" = "" := by
  refine ⟨by decide, fun c h => translateChar_not_domain h, fun s => rfl,
    ?_, ?_, by decide, by decide, rfl⟩
  · intro s
    unfold normalizeRouteName
    show (⟨(s.data.map translateChar).map translateChar⟩ : String) = _
    rw [List.map_map]
    exact congrArg String.mk
      (List.map_congr_left (fun c _ => translateChar_idem c))
  · intro s h
    have hdom : ∀ p ∈ routeNameMap, 128 < p.1.toNat := by decide
    have hmap : s.data.map translateChar = s.data := by
      conv_rhs => rw [← List.map_id s.data]
      apply List.map_congr_left
      intro c hc
      show translateChar c = c
      apply translateChar_not_domain
      intro p hp hpc
      have := hdom p hp
      rw [hpc] at this
      exact absurd (h c hc) (by omega)
    unfold normalizeRouteName
    cases s with
    | mk l => exact congrArg String.mk hmap

/-- C9 witness: the normalization theorem applied at concrete inputs,
discharging the ASCII-only and not-in-table hypotheses there. -/
theorem C9_route_name_normalization_witness :
    normalizeRouteName "C-758" = "C-758" ∧ translateChar '栄' = '栄' :=
  ⟨C9_route_name_normalization.2.2.2.2.1 "C-758" (by decide),
   C9_route_name_normalization.2.1 '栄' (by decide)⟩

/-! ## Bus-stop code validation (claims C7, C8) -/

/-- C8 — a code shorter than 5 characters or with a non-digit among its first
5 characters makes `_resolve_bus_stop` raise the explicit validation
`ValueError`, and no well-formed code ever triggers that validation error. -/
theorem C8_resolve_bus_stop_validation (base : BaseData) (code : String) :
    ((code.data.length < 5 ∨ ¬ ((code.data.take 5).all Char.isDigit)) →
      resolveBusStop base code = .error (.invalidBusStopCode code)) ∧
    (¬ (code.data.length < 5 ∨ ¬ ((code.data.take 5).all Char.isDigit)) →
      ∀ c, resolveBusStop base code ≠ .error (.invalidBusStopCode c)) := by
  constructor
  · intro h
    unfold resolveBusStop
    rw [if_pos h]
  · intro h c
    unfold resolveBusStop
    rw [if_neg h]
    cases hi : intOfChars (lstrip0 (code.data.take 5)) with
    | error e =>
      unfold intOfChars at hi
      split at hi
      · exact absurd hi (by simp)
      · cases hi
        simp
    | ok n => simp

/-- C8 witness: a malformed and a well-formed code at concrete inputs. -/
theorem C8_resolve_bus_stop_validation_witness :
    resolveBusStop ⟨[], []⟩ "123" = .error (.invalidBusStopCode "123") ∧
    ∀ c, resolveBusStop ⟨[], []⟩ "12345" ≠ .error (.invalidBusStopCode c) :=
  ⟨(C8_resolve_bus_stop_validation ⟨[], []⟩ "123").1 (by decide),
   (C8_resolve_bus_stop_validation ⟨[], []⟩ "12345").2 (by decide)⟩

/-! ## Disguised-404 detection (claim C4) -/

/-- C4 counterexample — a 200 `text/html` response containing the upstream's
`404 NotFound` marker passes `Client.get_station_names` without any not-found
error being raised, refuting the claim that all four operations named by the
spec (station-name table among them) surface it as `404 Not Found`. -/
theorem C4_counterexample :
    containsSubstr "text/html; charset=iso-8859-1" "text/html" = true ∧
    containsSubstr "<html><head><title>404 NotFound</title></head></html>"
      "404 NotFound" = true ∧
    stationNamesChecks
      ⟨200, "text/html; charset=iso-8859-1",
        "<html><head><title>404 NotFound</title></head></html>"⟩ = .ok () := by
  refine ⟨by decide, by decide, rfl⟩

/-- C4 (amended) — every fetch operation that applies `_check_404` (station
timetable diagram, stop/pole master, route master, live approach feed) turns a
2xx HTML response containing the `404 NotFound` marker into an error whose
message is exactly `404 Not Found`; the station-name table fetch applies no
such check and passes the response through. -/
theorem C4_disguised_404 (r : HttpResponse)
    (hs : 200 ≤ r.status ∧ r.status < 300)
    (hct : containsSubstr r.contentType "text/html" = true)
    (hb : containsSubstr r.body "404 NotFound" = true) :
    stationDiagramChecks r = .error (.notFoundError "404 Not Found") ∧
    busStopsChecks r = .error (.notFoundError "404 Not Found") ∧
    keitosChecks r = .error (.notFoundError "404 Not Found") ∧
    realtimeApproachChecks r = .error (.notFoundError "404 Not Found") ∧
    stationNamesChecks r = .ok () := by
  have h1 : raiseForStatus r = .ok () := by
    unfold raiseForStatus
    rw [if_pos hs]
  have h2 : check404 r = .error (.notFoundError "404 Not Found") := by
    unfold check404
    rw [if_pos ⟨hct, hb⟩]
  refine ⟨?_, ?_, ?_, ?_, h1⟩
  all_goals
    first
    | (unfold stationDiagramChecks; rw [h1, h2])
    | (unfold busStopsChecks; rw [h1, h2])
    | (unfold keitosChecks; rw [h1, h2])
    | (unfold realtimeApproachChecks; rw [h1, h2])

/-- C4 witness: the amended theorem applied to a concrete disguised-404
response. -/
theorem C4_disguised_404_witness :
    keitosChecks
      ⟨200, "text/html; charset=iso-8859-1",
        "<html><head><title>404 NotFound</title></head></html>"⟩ =
      .error (.notFoundError "404 Not Found") :=
  (C4_disguised_404
    ⟨200, "text/html; charset=iso-8859-1",
      "<html><head><title>404 NotFound</title></head></html>"⟩
    (by decide) (by decide) (by decide)).2.2.1

theorem char_toNat_inj {a b : Char} (h : a.toNat = b.toNat) : a = b :=
  Char.eq_of_val_eq (UInt32.ext h)

theorem isDigit_toNat_bounds {c : Char} (h : c.isDigit = true) :
    48 ≤ c.toNat ∧ c.toNat ≤ 57 := by
  unfold Char.isDigit at h
  rw [Bool.and_eq_true] at h
  obtain ⟨h1, h2⟩ := h
  rw [decide_eq_true_eq] at h1 h2
  exact ⟨h1, h2⟩

theorem digitChar_isDigit {d : Nat} (hd : d < 10) : (digitChar d).isDigit = true := by
  interval_cases d <;> decide

theorem digitChar_toNat {d : Nat} (hd : d < 10) : (digitChar d).toNat = 48 + d := by
  interval_cases d <;> decide

theorem digitChar_ne_zero {d : Nat} (hd : d < 10) (h0 : d ≠ 0) :
    digitChar d ≠ '0' := by
  interval_cases d
  · exact absurd rfl h0
  all_goals decide

theorem natDigitsAux_eq {fuel n : Nat} (h : n ≤ fuel) :
    natDigitsAux fuel n = Nat.digits 10 n := by
  induction fuel generalizing n with
  | zero =>
    interval_cases n
    simp [natDigitsAux]
  | succ fuel ih =>
    cases n with
    | zero => simp [natDigitsAux]
    | succ m =>
      rw [natDigitsAux, Nat.digits_def' (by norm_num) (Nat.succ_pos m)]
      congr 1
      apply ih
      have : (m + 1) / 10 < m + 1 := Nat.div_lt_self (Nat.succ_pos m) (by norm_num)
      omega

theorem natDecimalChars_digits (n : Nat) :
    natDecimalChars n = ((Nat.digits 10 n).map digitChar).reverse := by
  unfold natDecimalChars
  rw [natDigitsAux_eq le_rfl]

theorem natDecimalChars_all_digit (n : Nat) :
    ∀ c ∈ natDecimalChars n, c.isDigit = true := by
  rw [natDecimalChars_digits]
  intro c hc
  rw [List.mem_reverse, List.mem_map] at hc
  obtain ⟨d, hd, rfl⟩ := hc
  exact digitChar_isDigit (Nat.digits_lt_base (by norm_num) hd)

theorem natDecimalChars_length (n : Nat) :
    (natDecimalChars n).length = (Nat.digits 10 n).length := by
  rw [natDecimalChars_digits]
  simp

theorem digitsVal_natDecimalChars (n : Nat) :
    digitsVal (natDecimalChars n) = n := by
  rw [natDecimalChars_digits]
  unfold digitsVal
  rw [List.foldl_reverse, List.foldr_map]
  have key : ∀ L : List Nat, (∀ d ∈ L, d < 10) →
      L.foldr (fun d a => 10 * a + ((digitChar d).toNat - 48)) 0
        = Nat.ofDigits 10 L := by
    intro L hL
    induction L with
    | nil => simp [Nat.ofDigits]
    | cons d L ihL =>
      rw [List.foldr_cons, Nat.ofDigits_cons,
        ihL (fun x hx => hL x (List.mem_cons_of_mem _ hx)),
        digitChar_toNat (hL d (List.mem_cons_self _ _))]
      omega
  rw [key _ (fun d hd => Nat.digits_lt_base (by norm_num) hd)]
  exact Nat.ofDigits_digits 10 n

theorem natDecimalChars_len_le {n : Nat} (hn : n ≤ 99999) :
    (natDecimalChars n).length ≤ 5 := by
  rw [natDecimalChars_length]
  rcases eq_or_ne n 0 with rfl | hne
  · simp
  · rw [Nat.digits_len 10 n (by norm_num) hne]
    have hlt : n < 10 ^ 5 := by norm_num; omega
    have := Nat.log_lt_of_lt_pow hne hlt
    omega

theorem pad5chars_length {n : Nat} (hn : n ≤ 99999) : (pad5chars n).length = 5 := by
  unfold pad5chars
  rw [List.length_append, List.length_replicate]
  have := natDecimalChars_len_le hn
  omega

theorem pad5chars_all_digit (n : Nat) : ∀ c ∈ pad5chars n, c.isDigit = true := by
  unfold pad5chars
  intro c hc
  rcases List.mem_append.mp hc with hl | hr
  · rw [List.eq_of_mem_replicate hl]
    decide
  · exact natDecimalChars_all_digit n c hr

theorem lstrip0_replicate (k : Nat) (cs : List Char) :
    lstrip0 (List.replicate k '0' ++ cs) = lstrip0 cs := by
  induction k with
  | zero => simp
  | succ k ih =>
    rw [List.replicate_succ, List.cons_append]
    unfold lstrip0
    rw [List.dropWhile_cons_of_pos (by decide)]
    exact ih

theorem lstrip0_natDecimalChars {n : Nat} (hn : n ≠ 0) :
    lstrip0 (natDecimalChars n) = natDecimalChars n := by
  rw [natDecimalChars_digits]
  have hL : Nat.digits 10 n ≠ [] := Nat.digits_ne_nil_iff_ne_zero.mpr hn
  rcases List.eq_nil_or_concat (Nat.digits 10 n) with h | ⟨L, d, hLd⟩
  · exact absurd h hL
  · have hd10 : d < 10 := by
      apply Nat.digits_lt_base (by norm_num)
      rw [hLd, List.concat_eq_append]
      exact List.mem_append.mpr (Or.inr (List.mem_singleton_self d))
    have hdne : d ≠ 0 := by
      have hlast := Nat.getLast_digit_ne_zero 10 hn
      have : (Nat.digits 10 n).getLast hL = d := by
        have h1 : (L ++ [d]).getLast (by simp) = d := List.getLast_concat L
        calc (Nat.digits 10 n).getLast hL
            = (L ++ [d]).getLast (by simp) := by
              congr 1
              rw [hLd, List.concat_eq_append]
          _ = d := h1
      rw [this] at hlast
      exact hlast
    rw [hLd, List.concat_eq_append, List.map_append, List.reverse_append]
    simp only [List.map_cons, List.map_nil, List.reverse_cons, List.reverse_nil,
      List.nil_append, List.singleton_append]
    unfold lstrip0
    rw [List.dropWhile_cons_of_neg]
    rw [decide_eq_true_eq]
    exact digitChar_ne_zero hd10 hdne

theorem lstrip0_ne_nil {cs : List Char} (h : ∃ c ∈ cs, c ≠ '0') :
    lstrip0 cs ≠ [] := by
  induction cs with
  | nil => simp at h
  | cons c cs ih =>
    by_cases hc : c = '0'
    · unfold lstrip0
      rw [List.dropWhile_cons_of_pos (by simp [hc])]
      apply ih
      obtain ⟨x, hx, hxne⟩ := h
      rcases List.mem_cons.mp hx with rfl | hx'
      · exact absurd hc hxne
      · exact ⟨x, hx', hxne⟩
    · unfold lstrip0
      rw [List.dropWhile_cons_of_neg (by simp [hc])]
      simp

theorem lstrip0_head {cs : List Char} {c' : Char} {cs'' : List Char}
    (h : lstrip0 cs = c' :: cs'') : c' ≠ '0' := by
  induction cs with
  | nil => simp [lstrip0] at h
  | cons c cs ih =>
    by_cases hc : c = '0'
    · unfold lstrip0 at h
      rw [List.dropWhile_cons_of_pos (by simp [hc])] at h
      exact ih h
    · unfold lstrip0 at h
      rw [List.dropWhile_cons_of_neg (by simp [hc])] at h
      cases h
      exact hc

theorem lstrip0_mem {cs : List Char} {c : Char} (h : c ∈ lstrip0 cs) : c ∈ cs :=
  List.Sublist.mem h (List.dropWhile_sublist _)

theorem digitsVal_foldl_mono (cs : List Char) (a : Nat) :
    a ≤ cs.foldl (fun a c => 10 * a + (c.toNat - 48)) a := by
  induction cs generalizing a with
  | nil => exact le_rfl
  | cons c cs ih =>
    rw [List.foldl_cons]
    calc a ≤ 10 * a + (c.toNat - 48) := by omega
      _ ≤ _ := ih _

theorem digitsVal_pos {c : Char} (cs : List Char) (hc : c ≠ '0')
    (hcd : c.isDigit = true) : 1 ≤ digitsVal (c :: cs) := by
  unfold digitsVal
  rw [List.foldl_cons]
  have hb := isDigit_toNat_bounds hcd
  have hcne : c.toNat ≠ 48 := by
    intro h48
    exact hc (char_toNat_inj (by rw [h48]; decide))
  calc 1 ≤ 10 * 0 + (c.toNat - 48) := by omega
    _ ≤ _ := digitsVal_foldl_mono cs _

theorem digitsVal_lt (cs : List Char) (h : ∀ c ∈ cs, c.isDigit = true) :
    digitsVal cs < 10 ^ cs.length := by
  suffices H : ∀ (cs : List Char) (a : Nat), (∀ c ∈ cs, c.isDigit = true) →
      cs.foldl (fun a c => 10 * a + (c.toNat - 48)) a < (a + 1) * 10 ^ cs.length by
    have := H cs 0 h
    simpa using this
  intro cs
  induction cs with
  | nil =>
    intro a _
    simp
  | cons c cs ih =>
    intro a hall
    rw [List.foldl_cons]
    have hc := isDigit_toNat_bounds (hall c (List.mem_cons_self _ _))
    calc cs.foldl (fun a c => 10 * a + (c.toNat - 48)) (10 * a + (c.toNat - 48))
        < (10 * a + (c.toNat - 48) + 1) * 10 ^ cs.length :=
          ih _ (fun x hx => hall x (List.mem_cons_of_mem _ hx))
      _ ≤ ((a + 1) * 10) * 10 ^ cs.length :=
          Nat.mul_le_mul_right _ (by omega)
      _ = (a + 1) * 10 ^ (c :: cs).length := by
          rw [List.length_cons, pow_succ]
          ring

/-- C7 counterexample — `"00000A"` is a valid code by the claim's own
criterion (length ≥ 5, all-digit 5-character prefix), yet `_resolve_bus_stop`
raises: `"00000".lstrip("0")` is empty and `int("")` is a `ValueError`. -/
theorem C7_counterexample :
    5 ≤ ("00000A" : String).data.length ∧
    (("00000A" : String).data.take 5).all Char.isDigit = true ∧
    resolveBusStop ⟨[], []⟩ "00000A" = .error .intParseErr := by
  refine ⟨by decide, by decide, rfl⟩

/-- C7 (amended) — for every code of length ≥ 5 whose first 5 characters are
digits, not all of them `0`, `_resolve_bus_stop` succeeds, the extracted
station number is the value of the zero-stripped 5-digit prefix (a number in
`1..99999`), and re-resolving the code re-formed from the zero-padded extracted
number plus the original suffix yields the same station number. -/
theorem resolveBusStop_ok (base : BaseData) (code : String)
    (h1 : ¬ (code.data.length < 5 ∨ ¬ ((code.data.take 5).all Char.isDigit)))
    {n : Nat} (h2 : intOfChars (lstrip0 (code.data.take 5)) = .ok n) :
    ∃ b, resolveBusStop base code = .ok b ∧ b.station_number = n ∧
      b.bus_stop_code = code := by
  unfold resolveBusStop
  rw [if_neg h1, h2]
  exact ⟨_, rfl, rfl, rfl⟩

theorem C7_station_number_extraction (base : BaseData) (code : String)
    (hlen : 5 ≤ code.data.length)
    (hdig : (code.data.take 5).all Char.isDigit = true)
    (hnz : ∃ c ∈ code.data.take 5, c ≠ '0') :
    ∃ b, resolveBusStop base code = .ok b ∧
      b.station_number = digitsVal (lstrip0 (code.data.take 5)) ∧
      1 ≤ b.station_number ∧ b.station_number ≤ 99999 ∧
      ∃ b2, resolveBusStop base
          ⟨pad5chars b.station_number ++ code.data.drop 5⟩ = .ok b2 ∧
        b2.station_number = b.station_number := by
  have hdig' := List.all_eq_true.mp hdig
  have hstrip_digit : ∀ c ∈ lstrip0 (code.data.take 5), c.isDigit = true :=
    fun c hc => hdig' c (lstrip0_mem hc)
  have hne : lstrip0 (code.data.take 5) ≠ [] := lstrip0_ne_nil hnz
  have hint : intOfChars (lstrip0 (code.data.take 5))
      = .ok (digitsVal (lstrip0 (code.data.take 5))) := by
    unfold intOfChars
    rw [if_pos ⟨hne, List.all_eq_true.mpr hstrip_digit⟩]
  have hcond : ¬ (code.data.length < 5 ∨ ¬ ((code.data.take 5).all Char.isDigit)) := by
    push_neg
    exact ⟨by omega, hdig⟩
  obtain ⟨b, hokb, hbn, _⟩ := resolveBusStop_ok base code hcond hint
  obtain ⟨c', cs'', hcons⟩ : ∃ c' cs'', lstrip0 (code.data.take 5) = c' :: cs'' := by
    cases hx : lstrip0 (code.data.take 5) with
    | nil => exact absurd hx hne
    | cons a b => exact ⟨a, b, rfl⟩
  have hpos : 1 ≤ digitsVal (lstrip0 (code.data.take 5)) := by
    rw [hcons]
    exact digitsVal_pos cs'' (lstrip0_head hcons)
      (hstrip_digit c' (by rw [hcons]; exact List.mem_cons_self _ _))
  have hlenstrip : (lstrip0 (code.data.take 5)).length ≤ 5 := by
    calc (lstrip0 (code.data.take 5)).length
        ≤ (code.data.take 5).length := (List.dropWhile_sublist _).length_le
      _ ≤ 5 := by
          rw [List.length_take]
          omega
  have hle : digitsVal (lstrip0 (code.data.take 5)) ≤ 99999 := by
    have hlt := digitsVal_lt (lstrip0 (code.data.take 5)) hstrip_digit
    have : (10 : Nat) ^ (lstrip0 (code.data.take 5)).length ≤ 10 ^ 5 :=
      Nat.pow_le_pow_right (by norm_num) hlenstrip
    omega
  refine ⟨b, hokb, hbn, by rw [hbn]; exact hpos, by rw [hbn]; exact hle, ?_⟩
  -- stability under re-resolution
  rw [hbn]
  set n := digitsVal (lstrip0 (code.data.take 5)) with hn
  have hpadlen : (pad5chars n).length = 5 := pad5chars_length hle
  have htake : (pad5chars n ++ code.data.drop 5).take 5 = pad5chars n :=
    List.take_left' hpadlen
  have hdig2 : ((pad5chars n ++ code.data.drop 5).take 5).all Char.isDigit = true := by
    rw [htake]
    exact List.all_eq_true.mpr (pad5chars_all_digit n)
  have hnz2 : n ≠ 0 := by omega
  have hstrip2 : lstrip0 ((pad5chars n ++ code.data.drop 5).take 5)
      = natDecimalChars n := by
    rw [htake]
    unfold pad5chars
    rw [lstrip0_replicate]
    exact lstrip0_natDecimalChars hnz2
  have hne2 : natDecimalChars n ≠ [] := by
    rw [natDecimalChars_digits]
    simp only [ne_eq, List.reverse_eq_nil_iff, List.map_eq_nil_iff]
    exact Nat.digits_ne_nil_iff_ne_zero.mpr hnz2
  have hint2 : intOfChars (lstrip0 ((pad5chars n ++ code.data.drop 5).take 5))
      = .ok n := by
    rw [hstrip2]
    unfold intOfChars
    rw [if_pos ⟨hne2, List.all_eq_true.mpr (natDecimalChars_all_digit n)⟩,
      digitsVal_natDecimalChars]
  have hcond2 : ¬ ((⟨pad5chars n ++ code.data.drop 5⟩ : String).data.length < 5 ∨
      ¬ (((⟨pad5chars n ++ code.data.drop 5⟩ : String).data.take 5).all Char.isDigit)) := by
    rw [not_or, not_not]
    constructor
    · show ¬ ((pad5chars n ++ code.data.drop 5).length < 5)
      rw [List.length_append, hpadlen]
      omega
    · exact hdig2
  obtain ⟨b2, hok2, hbn2, _⟩ :=
    resolveBusStop_ok base ⟨pad5chars n ++ code.data.drop 5⟩ hcond2 hint2
  exact ⟨b2, hok2, hbn2⟩

/-- C7 witness: the amended extraction theorem at the concrete code
`"12345xyz"`. -/
theorem C7_station_number_extraction_witness :
    ∃ b, resolveBusStop ⟨[], []⟩ "12345xyz" = .ok b ∧
      b.station_number = digitsVal (lstrip0 (("12345xyz" : String).data.take 5)) ∧
      1 ≤ b.station_number ∧ b.station_number ≤ 99999 ∧
      ∃ b2, resolveBusStop ⟨[], []⟩
          ⟨pad5chars b.station_number ++ ("12345xyz" : String).data.drop 5⟩ = .ok b2 ∧
        b2.station_number = b.station_number :=
  C7_station_number_extraction ⟨[], []⟩ "12345xyz" (by decide) (by decide)
    ⟨'1', by decide, by decide⟩

/-! ## Current positions before a target stop (claim C2) -/

theorem listIndex?_isSome_of_mem {α : Type} [DecidableEq α] {l : List α}
    {a : α} (h : a ∈ l) : ∃ i, listIndex? l a = some i := by
  induction l with
  | nil => simp at h
  | cons x xs ih =>
    by_cases hx : x = a
    · exact ⟨0, by simp [listIndex?, hx]⟩
    · rcases List.mem_cons.mp h with rfl | h'
      · exact absurd rfl hx
      · obtain ⟨i, hi⟩ := ih h'
        exact ⟨i + 1, by simp [listIndex?, hx, hi]⟩

theorem getIndexForCodeAux_isSome_of_mem {code : String}
    {stops : List ApproachBusStop} (h : ∃ b ∈ stops, b.bus_stop_code = code) :
    ∃ t, getIndexForCodeAux code stops = some t := by
  induction stops with
  | nil => simp at h
  | cons b bs ih =>
    by_cases hb : b.bus_stop_code = code
    · exact ⟨0, by simp [getIndexForCodeAux, hb]⟩
    · obtain ⟨b', hb', hcode⟩ := h
      rcases List.mem_cons.mp hb' with rfl | h'
      · exact absurd hcode hb
      · obtain ⟨t, ht⟩ := ih ⟨b', h', hcode⟩
        exact ⟨t + 1, by simp [getIndexForCodeAux, hb, ht]⟩

theorem collectPositionsBefore_ok {stops : List ApproachBusStop} {t : Nat}
    {ps : List ApproachPosition} (h : ∀ p ∈ ps, p.previous_stop ∈ stops) :
    ∃ l, collectPositionsBefore stops t ps = .ok l ∧
      (∀ np ∈ l, ∃ i, listIndex? stops np.2.previous_stop = some i ∧
        i < t ∧ np.1 = t - i) ∧
      l.map (·.2) = ps.filter (fun p =>
        match listIndex? stops p.previous_stop with
        | some i => decide (i < t)
        | none => false) := by
  induction ps with
  | nil => exact ⟨[], rfl, by simp, by simp⟩
  | cons p ps ih =>
    obtain ⟨i, hi⟩ := listIndex?_isSome_of_mem (h p (List.mem_cons_self _ _))
    obtain ⟨l, hl, hprops, hmap⟩ := ih (fun q hq => h q (List.mem_cons_of_mem _ hq))
    by_cases hit : i < t
    · refine ⟨(t - i, p) :: l, ?_, ?_, ?_⟩
      · unfold collectPositionsBefore
        rw [hi, hl]
        show Except.ok (if i < t then (t - i, p) :: l else l) = _
        rw [if_pos hit]
      · intro np hnp
        rcases List.mem_cons.mp hnp with rfl | hnp'
        · exact ⟨i, hi, hit, rfl⟩
        · exact hprops np hnp'
      · rw [List.map_cons, List.filter_cons_of_pos (by rw [hi]; simp [hit]), hmap]
    · refine ⟨l, ?_, hprops, ?_⟩
      · unfold collectPositionsBefore
        rw [hi, hl]
        show Except.ok (if i < t then (t - i, p) :: l else l) = _
        rw [if_neg hit]
      · rw [List.filter_cons_of_neg (by rw [hi]; simp [hit]), hmap]

/-- C2 — for a target code occurring in the stop sequence (and positions whose
previous stops occur in the sequence, so that Python's `list.index` does not
raise), `get_current_positions_before_code` returns exactly the current
positions whose previous-stop index is before the target index, in original
order, each paired with `target index - previous index ≥ 1`; the first stop as
target yields `[]`. -/
theorem C2_current_positions_before_code (info : ApproachInfo) (code : String)
    (htarget : ∃ b ∈ info.bus_stops, b.bus_stop_code = code)
    (hprev : ∀ p ∈ info.current_positions, p.previous_stop ∈ info.bus_stops) :
    ∃ t, info.get_index_for_code code = some t ∧
      ∃ l, info.get_current_positions_before_code code = .ok l ∧
        (∀ np ∈ l, ∃ i, listIndex? info.bus_stops np.2.previous_stop = some i ∧
          i < t ∧ np.1 = t - i ∧ 1 ≤ np.1) ∧
        l.map (·.2) = info.current_positions.filter (fun p =>
          match listIndex? info.bus_stops p.previous_stop with
          | some i => decide (i < t)
          | none => false) ∧
        (∀ b0 bs, info.bus_stops = b0 :: bs → b0.bus_stop_code = code → l = []) := by
  obtain ⟨t, ht⟩ := getIndexForCodeAux_isSome_of_mem htarget
  obtain ⟨l, hl, hprops, hmap⟩ := collectPositionsBefore_ok (t := t) hprev
  refine ⟨t, ht, l, ?_, ?_, hmap, ?_⟩
  · unfold ApproachInfo.get_current_positions_before_code
    have ht' : info.get_index_for_code code = some t := ht
    rw [ht']
    show collectPositionsBefore info.bus_stops t info.current_positions
      = Except.ok l
    exact hl
  · intro np hnp
    obtain ⟨i, hi, hit, hcount⟩ := hprops np hnp
    exact ⟨i, hi, hit, hcount, by omega⟩
  · intro b0 bs hstops hb0
    have ht0 : getIndexForCodeAux code info.bus_stops = some 0 := by
      rw [hstops]
      simp [getIndexForCodeAux, hb0]
    rw [ht0] at ht
    cases ht
    rw [List.eq_nil_iff_forall_not_mem]
    intro np hnp
    obtain ⟨i, _, hit, _⟩ := hprops np hnp
    omega

/-- C2 witness: the theorem at a concrete three-stop route with two current
positions, targeting the last stop. -/
theorem C2_current_positions_before_code_witness :
    ∃ t, (ApproachInfo.mk "栄23" "中川車庫前発 栄行き"
        [⟨"41025701", 41025, "中川車庫前", "1番"⟩,
         ⟨"52025701", 52025, "野田", "1番"⟩,
         ⟨"31090101", 31090, "栄", "1番"⟩]
        []
        [⟨"NF 0612", ⟨"41025701", 41025, "中川車庫前", "1番"⟩, "21:31:42",
          ⟨"52025701", 52025, "野田", "1番"⟩⟩,
         ⟨"NF 0613", ⟨"52025701", 52025, "野田", "1番"⟩, "21:44:45",
          ⟨"31090101", 31090, "栄", "1番"⟩⟩]).get_index_for_code "31090101"
      = some t ∧
    ∃ l, (ApproachInfo.mk "栄23" "中川車庫前発 栄行き"
        [⟨"41025701", 41025, "中川車庫前", "1番"⟩,
         ⟨"52025701", 52025, "野田", "1番"⟩,
         ⟨"31090101", 31090, "栄", "1番"⟩]
        []
        [⟨"NF 0612", ⟨"41025701", 41025, "中川車庫前", "1番"⟩, "21:31:42",
          ⟨"52025701", 52025, "野田", "1番"⟩⟩,
         ⟨"NF 0613", ⟨"52025701", 52025, "野田", "1番"⟩, "21:44:45",
          ⟨"31090101", 31090, "栄", "1番"⟩⟩]).get_current_positions_before_code
        "31090101" = .ok l ∧
      (∀ np ∈ l, 1 ≤ np.1) := by
  obtain ⟨t, ht, l, hl, hprops, -, -⟩ :=
    C2_current_positions_before_code
      (ApproachInfo.mk "栄23" "中川車庫前発 栄行き"
        [⟨"41025701", 41025, "中川車庫前", "1番"⟩,
         ⟨"52025701", 52025, "野田", "1番"⟩,
         ⟨"31090101", 31090, "栄", "1番"⟩]
        []
        [⟨"NF 0612", ⟨"41025701", 41025, "中川車庫前", "1番"⟩, "21:31:42",
          ⟨"52025701", 52025, "野田", "1番"⟩⟩,
         ⟨"NF 0613", ⟨"52025701", 52025, "野田", "1番"⟩, "21:44:45",
          ⟨"31090101", 31090, "栄", "1番"⟩⟩])
      "31090101"
      ⟨⟨"31090101", 31090, "栄", "1番"⟩, by decide, by decide⟩
      (by decide)
  exact ⟨t, ht, l, hl, fun np hnp => (hprops np hnp).choose_spec.2.2.2⟩

/-! ## First-stop events are dropped (claim C3) -/

theorem latestStep_first_stop {codes : List String}
    {c2b : String → Option ApproachBusStop}
    {m : List (String × ApproachPosition)} {e : String × List (String × String)}
    (h : listIndex? codes (removeSlash e.1) = some 0) :
    latestStep codes c2b m e = .ok m := by
  unfold latestStep
  rw [h]
  simp

theorem currentStep_first_stop {codes : List String}
    {c2b : String → Option ApproachBusStop}
    {acc : List ApproachPosition} {e : String × List (String × String)}
    (h : listIndex? codes (removeSlash e.1) = some 0) :
    currentStep codes c2b acc e = .ok acc := by
  unfold currentStep
  rw [h]
  simp

theorem foldSteps_drop_skipped {σ : Type} {ε : Type}
    (step : σ → (String × List (String × String)) → Except ε σ)
    (codes : List String)
    (hskip : ∀ s e, listIndex? codes (removeSlash e.1) = some 0 → step s e = .ok s)
    (l : List (String × List (String × String))) (s : σ) :
    foldSteps step s (dropFirstStopEvents codes l) = foldSteps step s l := by
  induction l generalizing s with
  | nil => rfl
  | cons e l ih =>
    by_cases he : listIndex? codes (removeSlash e.1) = some 0
    · unfold dropFirstStopEvents
      rw [List.filter_cons_of_neg (by simp [he])]
      rw [show foldSteps step s (e :: l) = foldSteps step s l by
        rw [foldSteps, hskip s e he]]
      exact ih s
    · unfold dropFirstStopEvents
      rw [List.filter_cons_of_pos (by simp [he])]
      rw [foldSteps, foldSteps]
      cases step s e with
      | error err => rfl
      | ok s' => exact ih s'

/-- C3 — events whose next-stop key resolves to index 0 of the stop sequence
contribute nothing: removing them from either feed section leaves the entire
result of `get_realtime_approach` unchanged (including its error behaviour),
and processing such an event on its own returns the state unchanged without
raising. -/
theorem C3_first_stop_events_dropped (base : BaseData) (keito : KeitoResponse)
    (feed : ApproachFeed) :
    get_realtime_approach base keito
      ⟨dropFirstStopEvents keito.busstops feed.latest_bus_pass,
       dropFirstStopEvents keito.busstops feed.current_bus_positions⟩
      = get_realtime_approach base keito feed ∧
    (∀ (c2b : String → Option ApproachBusStop)
       (m : List (String × ApproachPosition)) (acc : List ApproachPosition)
       (e : String × List (String × String)),
      listIndex? keito.busstops (removeSlash e.1) = some 0 →
      latestStep keito.busstops c2b m e = .ok m ∧
      currentStep keito.busstops c2b acc e = .ok acc) := by
  constructor
  · unfold get_realtime_approach
    cases hres : resolveAll base keito.busstops with
    | error e => rfl
    | ok bus_stops =>
      dsimp only
      rw [foldSteps_drop_skipped (latestStep keito.busstops (c2bOf bus_stops))
        keito.busstops (fun s e he => latestStep_first_stop he)]
      rw [foldSteps_drop_skipped (currentStep keito.busstops (c2bOf bus_stops))
        keito.busstops (fun s e he => currentStep_first_stop he)]
  · intro c2b m acc e he
    exact ⟨latestStep_first_stop he, currentStep_first_stop he⟩

/-- C3 witness: a concrete event targeting the first stop is a no-op for both
loops. -/
theorem C3_first_stop_events_dropped_witness :
    latestStep ["11111A", "22222B"] (fun _ => none) []
      ("11111/A", [("c1", "20:00:00")]) = .ok [] ∧
    currentStep ["11111A", "22222B"] (fun _ => none) []
      ("11111/A", [("c1", "20:00:00")]) = .ok [] :=
  (C3_first_stop_events_dropped ⟨[], []⟩
    ⟨"栄23", "A", "B", "", ["11111A", "22222B"]⟩ ⟨[], []⟩).2
    (fun _ => none) [] [] ("11111/A", [("c1", "20:00:00")]) (by decide)

/-! ## Latest-pass collapsing (claim C1) -/

theorem foldSteps_inv {σ α ε : Type} {P : σ → Prop} {step : σ → α → Except ε σ}
    (hstep : ∀ s a s', step s a = .ok s' → P s → P s') :
    ∀ {l : List α} {s s' : σ}, foldSteps step s l = .ok s' → P s → P s' := by
  intro l
  induction l with
  | nil =>
    intro s s' h hP
    cases h
    exact hP
  | cons a l ih =>
    intro s s' h hP
    rw [foldSteps] at h
    cases hsa : step s a with
    | error e =>
      rw [hsa] at h
      exact absurd h (by simp)
    | ok s₁ =>
      rw [hsa] at h
      exact ih h (hstep s a s₁ hsa hP)

theorem stepMaxTime_none (t : String) : stepMaxTime none t = some t := rfl

theorem stepMaxTime_some (s t : String) :
    stepMaxTime (some s) t = if strLe t s = true then some s else some t := rfl

theorem stepMaxTime_spec {o : Option String} {t u : String}
    (h : stepMaxTime o t = some u) :
    (o = some u ∨ u = t) ∧ strLe t u = true ∧
      (∀ s, o = some s → strLe s u = true) := by
  cases o with
  | none =>
    cases h
    exact ⟨Or.inr rfl, strLe_refl _, by simp⟩
  | some s =>
    rw [stepMaxTime_some] at h
    by_cases hle : strLe t s = true
    · rw [if_pos hle] at h
      cases h
      refine ⟨Or.inl rfl, hle, ?_⟩
      intro s' hs'
      cases hs'
      exact strLe_refl _
    · rw [if_neg hle] at h
      cases h
      refine ⟨Or.inr rfl, strLe_refl _, ?_⟩
      intro s' hs'
      cases hs'
      rcases strLe_total t s with h' | h'
      · exact absurd h' hle
      · exact h'

theorem runMaxTime_spec :
    ∀ (ts : List String) (o : Option String) (v : String),
      runMaxTime o ts = some v →
      (o = some v ∨ v ∈ ts) ∧ (∀ t ∈ ts, strLe t v = true) ∧
        (∀ s, o = some s → strLe s v = true) := by
  intro ts
  induction ts with
  | nil =>
    intro o v h
    exact ⟨Or.inl h, by simp, fun s hs => by rw [hs] at h; cases h; exact strLe_refl _⟩
  | cons t ts ih =>
    intro o v h
    have hstep : runMaxTime o (t :: ts) = runMaxTime (stepMaxTime o t) ts := by
      unfold runMaxTime
      rw [List.foldl_cons]
    rw [hstep] at h
    obtain ⟨hmem, hub, hinit⟩ := ih (stepMaxTime o t) v h
    have hu : ∃ u, stepMaxTime o t = some u := by
      cases o with
      | none => exact ⟨t, rfl⟩
      | some s =>
        rw [stepMaxTime_some]
        by_cases hle : strLe t s = true
        · exact ⟨s, by rw [if_pos hle]⟩
        · exact ⟨t, by rw [if_neg hle]⟩
    obtain ⟨u, hu⟩ := hu
    obtain ⟨hor, htu, hsu⟩ := stepMaxTime_spec hu
    have huv : strLe u v = true := hinit u hu
    constructor
    · rcases hmem with hm | hm
      · rw [hu] at hm
        cases hm
        rcases hor with ho | ho
        · exact Or.inl ho
        · exact Or.inr (by rw [ho]; exact List.mem_cons_self _ _)
      · exact Or.inr (List.mem_cons_of_mem _ hm)
    refine ⟨?_, ?_⟩
    · intro t' ht'
      rcases List.mem_cons.mp ht' with rfl | ht''
      · exact strLe_trans htu huv
      · exact hub t' ht''
    · intro s hs
      exact strLe_trans (hsu s hs) huv

theorem runMaxTime_append (o : Option String) (xs ys : List String) :
    runMaxTime o (xs ++ ys) = runMaxTime (runMaxTime o xs) ys := by
  unfold runMaxTime
  rw [List.foldl_append]

theorem timesForPrev_cons (codes : List String) (p : String)
    (e : String × List (String × String))
    (feed : List (String × List (String × String))) :
    timesForPrev codes p (e :: feed)
      = timesForPrev codes p [e] ++ timesForPrev codes p feed := by
  simp only [timesForPrev, List.foldr_cons, List.foldr_nil, List.append_nil]

theorem latestPassUpdate_proj {c2b : String → Option ApproachBusStop}
    {prev next : String} {m m' : List (String × ApproachPosition)}
    {ct : String × String}
    (h : latestPassUpdate c2b prev next m ct = .ok m') :
    (dget? m' prev).map (·.passed_time)
      = stepMaxTime ((dget? m prev).map (·.passed_time)) ct.2 := by
  unfold latestPassUpdate at h
  by_cases hk : latestPassKeep m prev ct.2 = true
  · rw [if_pos hk] at h
    cases h
    unfold latestPassKeep at hk
    cases hd : dget? m prev with
    | none =>
      rw [hd] at hk
      simp at hk
    | some r =>
      rw [hd] at hk
      have hk' : strLe ct.2 r.passed_time = true := hk
      simp only [Option.map_some']
      rw [stepMaxTime_some, if_pos hk']
  · rw [if_neg hk] at h
    unfold latestPassKeep at hk
    cases hp : c2b prev with
    | none =>
      rw [hp] at h
      exact absurd h (by simp)
    | some prevStop =>
      cases hn : c2b next with
      | none =>
        rw [hp, hn] at h
        exact absurd h (by simp)
      | some nextStop =>
        rw [hp, hn] at h
        cases h
        rw [dget?_dset_self]
        simp only [Option.map_some']
        cases hd : dget? m prev with
        | none => rfl
        | some r =>
          rw [hd] at hk
          have hkr : ¬ (strLe ct.2 r.passed_time = true) := hk
          simp only [Option.map_some']
          rw [stepMaxTime_some, if_neg hkr]

theorem latestPassUpdate_other {c2b : String → Option ApproachBusStop}
    {prev next : String} {m m' : List (String × ApproachPosition)}
    {ct : String × String}
    (h : latestPassUpdate c2b prev next m ct = .ok m') {k : String}
    (hk : k ≠ prev) : dget? m' k = dget? m k := by
  unfold latestPassUpdate at h
  by_cases hkeep : latestPassKeep m prev ct.2 = true
  · rw [if_pos hkeep] at h
    cases h
    rfl
  · rw [if_neg hkeep] at h
    cases hp : c2b prev with
    | none =>
      rw [hp] at h
      exact absurd h (by simp)
    | some prevStop =>
      cases hn : c2b next with
      | none =>
        rw [hp, hn] at h
        exact absurd h (by simp)
      | some nextStop =>
        rw [hp, hn] at h
        cases h
        exact dget?_dset_ne _ _ _ _ hk

theorem latestPassFold_proj {c2b : String → Option ApproachBusStop}
    {prev next : String} :
    ∀ (ts : List (String × String)) (m m' : List (String × ApproachPosition)),
      foldSteps (latestPassUpdate c2b prev next) m ts = .ok m' →
      ((dget? m' prev).map (·.passed_time)
          = runMaxTime ((dget? m prev).map (·.passed_time)) (ts.map (·.2))) ∧
        (∀ k, k ≠ prev → dget? m' k = dget? m k) := by
  intro ts
  induction ts with
  | nil =>
    intro m m' h
    cases h
    exact ⟨rfl, fun k _ => rfl⟩
  | cons ct ts ih =>
    intro m m' h
    rw [foldSteps] at h
    cases hstep : latestPassUpdate c2b prev next m ct with
    | error e =>
      rw [hstep] at h
      exact absurd h (by simp)
    | ok m₁ =>
      rw [hstep] at h
      obtain ⟨ihp, iho⟩ := ih m₁ m' h
      constructor
      · rw [ihp, latestPassUpdate_proj hstep]
        rw [List.map_cons]
        unfold runMaxTime
        rw [List.foldl_cons]
      · intro k hk
        rw [iho k hk, latestPassUpdate_other hstep hk]

theorem latestStep_proj {codes : List String}
    {c2b : String → Option ApproachBusStop}
    {m m' : List (String × ApproachPosition)}
    {e : String × List (String × String)}
    (h : latestStep codes c2b m e = .ok m') (k : String) :
    (dget? m' k).map (·.passed_time)
      = runMaxTime ((dget? m k).map (·.passed_time)) (timesForPrev codes k [e]) := by
  unfold latestStep at h
  cases hidx : listIndex? codes (removeSlash e.1) with
  | none =>
    rw [hidx] at h
    exact absurd h (by simp)
  | some idx =>
    rw [hidx] at h
    have h' : (if idx = 0 then Except.ok m
        else foldSteps (latestPassUpdate c2b (codes.getD (idx - 1) "")
          (removeSlash e.1)) m e.2) = Except.ok m' := h
    by_cases h0 : idx = 0
    · rw [if_pos h0] at h'
      cases h'
      have htimes : timesForPrev codes k [e] = [] := by
        simp [timesForPrev, hidx, h0]
      rw [htimes]
      rfl
    · rw [if_neg h0] at h'
      obtain ⟨hp, ho⟩ := latestPassFold_proj e.2 m m' h'
      by_cases hk : k = codes.getD (idx - 1) ""
      · have htimes : timesForPrev codes k [e] = e.2.map (·.2) := by
          simp [timesForPrev, hidx, h0, hk]
        rw [htimes, hk]
        exact hp
      · have htimes : timesForPrev codes k [e] = [] := by
          simp only [timesForPrev, List.foldr_cons, List.foldr_nil,
            List.append_nil, hidx]
          rw [if_neg]
          intro ⟨_, hc⟩
          exact hk hc.symm
        rw [htimes, ho k hk]
        rfl

theorem latestFold_proj {codes : List String}
    {c2b : String → Option ApproachBusStop} :
    ∀ (feed : List (String × List (String × String)))
      (m m' : List (String × ApproachPosition)),
      foldSteps (latestStep codes c2b) m feed = .ok m' → ∀ k,
      (dget? m' k).map (·.passed_time)
        = runMaxTime ((dget? m k).map (·.passed_time)) (timesForPrev codes k feed) := by
  intro feed
  induction feed with
  | nil =>
    intro m m' h k
    cases h
    rfl
  | cons e feed ih =>
    intro m m' h k
    rw [foldSteps] at h
    cases hstep : latestStep codes c2b m e with
    | error err =>
      rw [hstep] at h
      exact absurd h (by simp)
    | ok m₁ =>
      rw [hstep] at h
      rw [ih m₁ m' h k, latestStep_proj hstep k,
        timesForPrev_cons codes k e feed, runMaxTime_append]

theorem dset_mem {κ β : Type} [DecidableEq κ] {l : List (κ × β)} {k : κ}
    {v : β} {p : κ × β} (h : p ∈ dset l k v) : p ∈ l ∨ p = (k, v) := by
  unfold dset at h
  by_cases hh : dhas l k = true
  · rw [if_pos hh] at h
    rw [List.mem_map] at h
    obtain ⟨q, hq, hqp⟩ := h
    by_cases hqk : q.1 = k
    · rw [if_pos hqk] at hqp
      exact Or.inr hqp.symm
    · rw [if_neg hqk] at hqp
      exact Or.inl (hqp ▸ hq)
  · rw [if_neg hh] at h
    rcases List.mem_append.mp h with h' | h'
    · exact Or.inl h'
    · exact Or.inr (List.mem_singleton.mp h')

theorem latestPassUpdate_keys_nodup {c2b : String → Option ApproachBusStop}
    {prev next : String} {m m' : List (String × ApproachPosition)}
    {ct : String × String}
    (h : latestPassUpdate c2b prev next m ct = .ok m')
    (hn : (m.map Prod.fst).Nodup) : (m'.map Prod.fst).Nodup := by
  unfold latestPassUpdate at h
  by_cases hkeep : latestPassKeep m prev ct.2 = true
  · rw [if_pos hkeep] at h
    cases h
    exact hn
  · rw [if_neg hkeep] at h
    cases hp : c2b prev with
    | none =>
      rw [hp] at h
      exact absurd h (by simp)
    | some prevStop =>
      cases hnx : c2b next with
      | none =>
        rw [hp, hnx] at h
        exact absurd h (by simp)
      | some nextStop =>
        rw [hp, hnx] at h
        cases h
        exact dset_keys_nodup hn _ _

theorem latestStep_keys_nodup {codes : List String}
    {c2b : String → Option ApproachBusStop}
    {m m' : List (String × ApproachPosition)}
    {e : String × List (String × String)}
    (h : latestStep codes c2b m e = .ok m')
    (hn : (m.map Prod.fst).Nodup) : (m'.map Prod.fst).Nodup := by
  unfold latestStep at h
  cases hidx : listIndex? codes (removeSlash e.1) with
  | none =>
    rw [hidx] at h
    exact absurd h (by simp)
  | some idx =>
    rw [hidx] at h
    have h' : (if idx = 0 then Except.ok m
        else foldSteps (latestPassUpdate c2b (codes.getD (idx - 1) "")
          (removeSlash e.1)) m e.2) = Except.ok m' := h
    by_cases h0 : idx = 0
    · rw [if_pos h0] at h'
      cases h'
      exact hn
    · rw [if_neg h0] at h'
      exact foldSteps_inv (fun s a s' hs hP => latestPassUpdate_keys_nodup hs hP)
        h' hn

theorem get_realtime_approach_ok_inv {base : BaseData} {keito : KeitoResponse}
    {feed : ApproachFeed} {info : ApproachInfo}
    (h : get_realtime_approach base keito feed = .ok info) :
    ∃ bus_stops latest current,
      resolveAll base keito.busstops = .ok bus_stops ∧
      foldSteps (latestStep keito.busstops (c2bOf bus_stops)) []
        feed.latest_bus_pass = .ok latest ∧
      foldSteps (currentStep keito.busstops (c2bOf bus_stops)) []
        feed.current_bus_positions = .ok current ∧
      info.bus_stops = bus_stops ∧ info.latest_passes = latest ∧
      info.current_positions = current := by
  unfold get_realtime_approach at h
  split at h
  · exact absurd h (by simp)
  · next bus_stops hres =>
    split at h
    · exact absurd h (by simp)
    · next latest hlat =>
      split at h
      · exact absurd h (by simp)
      · next current hcur =>
        cases h
        exact ⟨bus_stops, latest, current, hres, hlat, hcur, rfl, rfl, rfl⟩

/-- C1 — in the result of `get_realtime_approach`: the latest-pass keys are
distinct (one record per previous-stop code); the retained record under key
`k` carries the lexicographically greatest `passed_time` among all feed
updates resolving to `k` (hence the same record survives any arrival order);
and a single update leaves an existing record unchanged when its time is
less than or equal to the retained one and replaces it when strictly
greater. -/
theorem C1_latest_pass_collapsing (base : BaseData) (keito : KeitoResponse)
    (feed : ApproachFeed) (info : ApproachInfo)
    (hok : get_realtime_approach base keito feed = .ok info) :
    (info.latest_passes.map Prod.fst).Nodup ∧
    (∀ k r, dget? info.latest_passes k = some r →
      r.passed_time ∈ timesForPrev keito.busstops k feed.latest_bus_pass ∧
      ∀ t ∈ timesForPrev keito.busstops k feed.latest_bus_pass,
        strLe t r.passed_time = true) ∧
    (∀ (c2b : String → Option ApproachBusStop) (prev next : String)
       (m m' : List (String × ApproachPosition)) (ct : String × String)
       (r : ApproachPosition),
      dget? m prev = some r →
      latestPassUpdate c2b prev next m ct = .ok m' →
      ((strLe ct.2 r.passed_time = true → m' = m) ∧
       (strLe ct.2 r.passed_time = false →
         ∃ p nx, c2b prev = some p ∧ c2b next = some nx ∧
           dget? m' prev = some ⟨ct.1, p, ct.2, nx⟩))) := by
  obtain ⟨bus_stops, latest, current, hres, hlat, hcur, hbs, hlp, hcp⟩ :=
    get_realtime_approach_ok_inv hok
  refine ⟨?_, ?_, ?_⟩
  · rw [hlp]
    exact foldSteps_inv (fun s a s' hs hP => latestStep_keys_nodup hs hP)
      hlat (by simp)
  · intro k r hr
    have hproj := latestFold_proj feed.latest_bus_pass [] latest hlat k
    rw [← hlp] at hproj
    rw [hr] at hproj
    simp only [Option.map_some'] at hproj
    obtain ⟨hmem, hub, _⟩ :=
      runMaxTime_spec (timesForPrev keito.busstops k feed.latest_bus_pass)
        ((dget? ([] : List (String × ApproachPosition)) k).map (·.passed_time))
        r.passed_time hproj.symm
    refine ⟨?_, hub⟩
    rcases hmem with hm | hm
    · exact absurd hm (by simp [dget?])
    · exact hm
  · intro c2b prev next m m' ct r hr hupd
    constructor
    · intro hle
      unfold latestPassUpdate at hupd
      have hkeep : latestPassKeep m prev ct.2 = true := by
        unfold latestPassKeep
        rw [hr]
        exact hle
      rw [if_pos hkeep] at hupd
      cases hupd
      rfl
    · intro hgt
      unfold latestPassUpdate at hupd
      have hkeep : latestPassKeep m prev ct.2 = false := by
        unfold latestPassKeep
        rw [hr]
        exact hgt
      rw [if_neg (by rw [hkeep]; simp)] at hupd
      cases hp : c2b prev with
      | none =>
        rw [hp] at hupd
        exact absurd hupd (by simp)
      | some prevStop =>
        cases hnx : c2b next with
        | none =>
          rw [hp, hnx] at hupd
          exact absurd hupd (by simp)
        | some nextStop =>
          rw [hp, hnx] at hupd
          cases hupd
          exact ⟨prevStop, nextStop, rfl, rfl, dget?_dset_self _ _ _⟩

/-- C1 witness: the collapsing theorem on a concrete two-stop route where two
updates for the same previous stop arrive, times `20:00:00` then `21:00:00`;
the retained time is the maximum. -/
theorem C1_latest_pass_collapsing_witness :
    "21:00:00" ∈ timesForPrev ["11111A", "22222B"] "11111A"
      [("22222/B", [("c1", "20:00:00"), ("c2", "21:00:00")])] ∧
    ∀ t ∈ timesForPrev ["11111A", "22222B"] "11111A"
      [("22222/B", [("c1", "20:00:00"), ("c2", "21:00:00")])],
      strLe t "21:00:00" = true :=
  (C1_latest_pass_collapsing ⟨[], []⟩
    ⟨"栄23", "A", "B", "", ["11111A", "22222B"]⟩
    ⟨[("22222/B", [("c1", "20:00:00"), ("c2", "21:00:00")])], []⟩
    ⟨"栄23", "A発 B行き",
     [⟨"11111A", 11111, "不明なバス停", "不明なのりば"⟩,
      ⟨"22222B", 22222, "不明なバス停", "不明なのりば"⟩],
     [("11111A",
       ⟨"c2", ⟨"11111A", 11111, "不明なバス停", "不明なのりば"⟩, "21:00:00",
        ⟨"22222B", 22222, "不明なバス停", "不明なのりば"⟩⟩)],
     []⟩
    rfl).2.1 "11111A"
    ⟨"c2", ⟨"11111A", 11111, "不明なバス停", "不明なのりば"⟩, "21:00:00",
     ⟨"22222B", 22222, "不明なバス停", "不明なのりば"⟩⟩
    rfl

/-! ## Structural invariants of the approach result (claim C10) -/

theorem resolveBusStop_bus_stop_code {base : BaseData} {code : String}
    {b : ApproachBusStop} (h : resolveBusStop base code = .ok b) :
    b.bus_stop_code = code := by
  by_cases hcond : code.data.length < 5 ∨ ¬ ((code.data.take 5).all Char.isDigit)
  · have h' : resolveBusStop base code = .error (.invalidBusStopCode code) := by
      unfold resolveBusStop
      rw [if_pos hcond]
    rw [h'] at h
    exact absurd h (by simp)
  · cases hint : intOfChars (lstrip0 (code.data.take 5)) with
    | error e =>
      have h' : resolveBusStop base code = .error e := by
        unfold resolveBusStop
        rw [if_neg hcond, hint]
      rw [h'] at h
      exact absurd h (by simp)
    | ok n =>
      obtain ⟨b', hok, hn, hcode⟩ := resolveBusStop_ok base code hcond hint
      rw [hok] at h
      cases h
      exact hcode

theorem resolveAll_spec {base : BaseData} :
    ∀ {codes : List String} {bus_stops : List ApproachBusStop},
      resolveAll base codes = .ok bus_stops →
      bus_stops.length = codes.length ∧
      ∀ (i : Nat) (c : String), codes[i]? = some c →
        ∃ b, bus_stops[i]? = some b ∧ resolveBusStop base c = .ok b := by
  intro codes
  induction codes with
  | nil =>
    intro bus_stops h
    cases h
    exact ⟨rfl, by simp⟩
  | cons c cs ih =>
    intro bus_stops h
    unfold resolveAll at h
    split at h
    · exact absurd h (by simp)
    · next b hb =>
      split at h
      · exact absurd h (by simp)
      · next bs hbs =>
        cases h
        obtain ⟨hlen, hptw⟩ := ih hbs
        refine ⟨by simp [hlen], ?_⟩
        intro i c' hc'
        cases i with
        | zero =>
          rw [List.getElem?_cons_zero] at hc'
          cases hc'
          exact ⟨b, by simp, hb⟩
        | succ j =>
          rw [List.getElem?_cons_succ] at hc'
          obtain ⟨b', hb', hrb'⟩ := hptw j c' hc'
          exact ⟨b', by rw [List.getElem?_cons_succ]; exact hb', hrb'⟩

theorem c2bOf_spec {bus_stops : List ApproachBusStop} {code : String}
    {b : ApproachBusStop} (h : c2bOf bus_stops code = some b) :
    b ∈ bus_stops ∧ b.bus_stop_code = code := by
  unfold c2bOf at h
  have hmem := dget?_mem h
  rw [List.mem_map] at hmem
  obtain ⟨b', hb', heq⟩ := hmem
  have h1 : b'.bus_stop_code = code := congrArg Prod.fst heq
  have h2 : b' = b := congrArg Prod.snd heq
  subst h2
  exact ⟨hb', h1⟩

theorem c2bOf_of_resolveAll {base : BaseData} {codes : List String}
    {bus_stops : List ApproachBusStop}
    (hres : resolveAll base codes = .ok bus_stops) {i : Nat} {c : String}
    (hc : codes[i]? = some c) :
    ∃ b, bus_stops[i]? = some b ∧ c2bOf bus_stops c = some b := by
  obtain ⟨hlen, hptw⟩ := resolveAll_spec hres
  obtain ⟨b, hb, hrb⟩ := hptw i c hc
  have hbmem : b ∈ bus_stops := by
    obtain ⟨hlt, hget⟩ := List.getElem?_eq_some_iff.mp hb
    rw [← hget]
    exact List.getElem_mem hlt
  have hcode : b.bus_stop_code = c := resolveBusStop_bus_stop_code hrb
  obtain ⟨v, hv⟩ := dget?_isSome_of_mem
    (l := bus_stops.map (fun b => (b.bus_stop_code, b))) (k := c)
    ⟨(b.bus_stop_code, b), List.mem_map.mpr ⟨b, hbmem, rfl⟩, hcode⟩
  have hv' : c2bOf bus_stops c = some v := hv
  obtain ⟨hvmem, hvcode⟩ := c2bOf_spec hv'
  obtain ⟨j, hjlt, hjget⟩ := List.getElem_of_mem hvmem
  have hjq : bus_stops[j]? = some v := by
    rw [List.getElem?_eq_some_iff]
    exact ⟨hjlt, hjget⟩
  have hjcodes : j < codes.length := by omega
  obtain ⟨c', hc'⟩ : ∃ c', codes[j]? = some c' :=
    ⟨codes[j], List.getElem?_eq_getElem hjcodes⟩
  obtain ⟨b₀, hb₀, hrb₀⟩ := hptw j c' hc'
  have hvb₀ : b₀ = v := by
    rw [hjq] at hb₀
    exact ((Option.some.injEq _ _).mp hb₀).symm
  have hcc' : c' = c := by
    rw [← resolveBusStop_bus_stop_code hrb₀, hvb₀, hvcode]
  rw [hcc', hvb₀] at hrb₀
  have hbv : v = b := by
    rw [hrb₀] at hrb
    exact ((Except.ok.injEq _ _).mp hrb)
  rw [hbv] at hv'
  exact ⟨b, hb, hv'⟩

theorem latestPassUpdate_adj {bus_stops : List ApproachBusStop}
    {prev next : String} {m m' : List (String × ApproachPosition)}
    {ct : String × String}
    (h : latestPassUpdate (c2bOf bus_stops) prev next m ct = .ok m')
    (hgood : ∀ p nx, c2bOf bus_stops prev = some p →
      c2bOf bus_stops next = some nx →
      ∃ i : Nat, bus_stops[i]? = some p ∧ bus_stops[i + 1]? = some nx)
    (hm : ∀ kr ∈ m, kr.2.previous_stop.bus_stop_code = kr.1 ∧
      ∃ i : Nat, bus_stops[i]? = some kr.2.previous_stop ∧
        bus_stops[i + 1]? = some kr.2.next_stop) :
    ∀ kr ∈ m', kr.2.previous_stop.bus_stop_code = kr.1 ∧
      ∃ i : Nat, bus_stops[i]? = some kr.2.previous_stop ∧
        bus_stops[i + 1]? = some kr.2.next_stop := by
  unfold latestPassUpdate at h
  by_cases hkeep : latestPassKeep m prev ct.2 = true
  · rw [if_pos hkeep] at h
    cases h
    exact hm
  · rw [if_neg hkeep] at h
    cases hp : c2bOf bus_stops prev with
    | none =>
      rw [hp] at h
      exact absurd h (by simp)
    | some prevStop =>
      cases hn : c2bOf bus_stops next with
      | none =>
        rw [hp, hn] at h
        exact absurd h (by simp)
      | some nextStop =>
        rw [hp, hn] at h
        cases h
        intro kr hkr
        rcases dset_mem hkr with hin | hnew
        · exact hm kr hin
        · subst hnew
          exact ⟨(c2bOf_spec hp).2, hgood prevStop nextStop hp hn⟩

theorem currentAppend_adj {bus_stops : List ApproachBusStop}
    {prev next : String} {acc acc' : List ApproachPosition}
    {ct : String × String}
    (h : currentAppend (c2bOf bus_stops) prev next acc ct = .ok acc')
    (hgood : ∀ p nx, c2bOf bus_stops prev = some p →
      c2bOf bus_stops next = some nx →
      ∃ i : Nat, bus_stops[i]? = some p ∧ bus_stops[i + 1]? = some nx)
    (hm : ∀ q ∈ acc, ∃ i : Nat, bus_stops[i]? = some q.previous_stop ∧
        bus_stops[i + 1]? = some q.next_stop) :
    ∀ q ∈ acc', ∃ i : Nat, bus_stops[i]? = some q.previous_stop ∧
        bus_stops[i + 1]? = some q.next_stop := by
  unfold currentAppend at h
  cases hp : c2bOf bus_stops prev with
  | none =>
    rw [hp] at h
    exact absurd h (by simp)
  | some prevStop =>
    cases hn : c2bOf bus_stops next with
    | none =>
      rw [hp, hn] at h
      exact absurd h (by simp)
    | some nextStop =>
      rw [hp, hn] at h
      cases h
      intro q hq
      rcases List.mem_append.mp hq with hin | hnew
      · exact hm q hin
      · rw [List.mem_singleton] at hnew
        subst hnew
        exact hgood prevStop nextStop hp hn

theorem stepGood_of_resolveAll {base : BaseData} {codes : List String}
    {bus_stops : List ApproachBusStop}
    (hres : resolveAll base codes = .ok bus_stops) {e₁ : String} {idx : Nat}
    (hidx : listIndex? codes e₁ = some idx) (h0 : ¬ idx = 0) :
    ∀ p nx, c2bOf bus_stops (codes.getD (idx - 1) "") = some p →
      c2bOf bus_stops e₁ = some nx →
      ∃ i : Nat, bus_stops[i]? = some p ∧ bus_stops[i + 1]? = some nx := by
  have hnextc : codes[idx]? = some e₁ := listIndex?_some hidx
  have hidxlt : idx < codes.length := (List.getElem?_eq_some_iff.mp hnextc).1
  have hprevlt : idx - 1 < codes.length := by omega
  obtain ⟨cprev, hcprev⟩ : ∃ c, codes[idx - 1]? = some c :=
    ⟨codes[idx - 1], List.getElem?_eq_getElem hprevlt⟩
  have hgetD : codes.getD (idx - 1) "" = cprev := by
    rw [List.getD_eq_getElem?_getD, hcprev]
    rfl
  obtain ⟨bPrev, hbPrev, hc2bPrev⟩ := c2bOf_of_resolveAll hres hcprev
  obtain ⟨bNext, hbNext, hc2bNext⟩ := c2bOf_of_resolveAll hres hnextc
  intro p nx hp hnx
  rw [hgetD, hc2bPrev] at hp
  cases hp
  rw [hc2bNext] at hnx
  cases hnx
  refine ⟨idx - 1, hbPrev, ?_⟩
  have hsub : idx - 1 + 1 = idx := by omega
  rw [hsub]
  exact hbNext

theorem latestStep_adj {base : BaseData} {codes : List String}
    {bus_stops : List ApproachBusStop}
    (hres : resolveAll base codes = .ok bus_stops)
    {m m' : List (String × ApproachPosition)}
    {e : String × List (String × String)}
    (h : latestStep codes (c2bOf bus_stops) m e = .ok m')
    (hm : ∀ kr ∈ m, kr.2.previous_stop.bus_stop_code = kr.1 ∧
      ∃ i : Nat, bus_stops[i]? = some kr.2.previous_stop ∧
        bus_stops[i + 1]? = some kr.2.next_stop) :
    ∀ kr ∈ m', kr.2.previous_stop.bus_stop_code = kr.1 ∧
      ∃ i : Nat, bus_stops[i]? = some kr.2.previous_stop ∧
        bus_stops[i + 1]? = some kr.2.next_stop := by
  unfold latestStep at h
  cases hidx : listIndex? codes (removeSlash e.1) with
  | none =>
    rw [hidx] at h
    exact absurd h (by simp)
  | some idx =>
    rw [hidx] at h
    have h' : (if idx = 0 then Except.ok m
        else foldSteps (latestPassUpdate (c2bOf bus_stops)
          (codes.getD (idx - 1) "") (removeSlash e.1)) m e.2) = Except.ok m' := h
    by_cases h0 : idx = 0
    · rw [if_pos h0] at h'
      cases h'
      exact hm
    · rw [if_neg h0] at h'
      exact foldSteps_inv
        (fun s a s' hs hP =>
          latestPassUpdate_adj hs (stepGood_of_resolveAll hres hidx h0) hP)
        h' hm

theorem currentStep_adj {base : BaseData} {codes : List String}
    {bus_stops : List ApproachBusStop}
    (hres : resolveAll base codes = .ok bus_stops)
    {acc acc' : List ApproachPosition} {e : String × List (String × String)}
    (h : currentStep codes (c2bOf bus_stops) acc e = .ok acc')
    (hm : ∀ q ∈ acc, ∃ i : Nat, bus_stops[i]? = some q.previous_stop ∧
        bus_stops[i + 1]? = some q.next_stop) :
    ∀ q ∈ acc', ∃ i : Nat, bus_stops[i]? = some q.previous_stop ∧
        bus_stops[i + 1]? = some q.next_stop := by
  unfold currentStep at h
  cases hidx : listIndex? codes (removeSlash e.1) with
  | none =>
    rw [hidx] at h
    exact absurd h (by simp)
  | some idx =>
    rw [hidx] at h
    have h' : (if idx = 0 then Except.ok acc
        else foldSteps (currentAppend (c2bOf bus_stops)
          (codes.getD (idx - 1) "") (removeSlash e.1)) acc e.2) = Except.ok acc' := h
    by_cases h0 : idx = 0
    · rw [if_pos h0] at h'
      cases h'
      exact hm
    · rw [if_neg h0] at h'
      exact foldSteps_inv
        (fun s a s' hs hP =>
          currentAppend_adj hs (stepGood_of_resolveAll hres hidx h0) hP)
        h' hm

/-- C10 — in every successful `get_realtime_approach` result: each
latest-pass record is keyed by its own previous stop's code, and every stored
position (latest pass or current) has its previous and next stops at adjacent
indices, in order, of the route's stop sequence. -/
theorem C10_approach_info_invariants (base : BaseData) (keito : KeitoResponse)
    (feed : ApproachFeed) (info : ApproachInfo)
    (hok : get_realtime_approach base keito feed = .ok info) :
    (∀ kr ∈ info.latest_passes, kr.2.previous_stop.bus_stop_code = kr.1) ∧
    (∀ kr ∈ info.latest_passes,
      ∃ i : Nat, info.bus_stops[i]? = some kr.2.previous_stop ∧
        info.bus_stops[i + 1]? = some kr.2.next_stop) ∧
    (∀ p ∈ info.current_positions,
      ∃ i : Nat, info.bus_stops[i]? = some p.previous_stop ∧
        info.bus_stops[i + 1]? = some p.next_stop) := by
  obtain ⟨bus_stops, latest, current, hres, hlat, hcur, hbs, hlp, hcp⟩ :=
    get_realtime_approach_ok_inv hok
  rw [hbs, hlp, hcp]
  have hlatestInv := foldSteps_inv
    (fun s a s' hs hP => latestStep_adj hres hs hP) hlat (by simp)
  have hcurInv := foldSteps_inv
    (fun s a s' hs hP => currentStep_adj hres hs hP) hcur (by simp)
  exact ⟨fun kr hkr => (hlatestInv kr hkr).1,
    fun kr hkr => (hlatestInv kr hkr).2, hcurInv⟩

/-- C10 witness: the invariants theorem at a concrete route with one
latest-pass record and one current position. -/
theorem C10_approach_info_invariants_witness :
    (∀ kr ∈ ([("11111A",
        (⟨"c1", ⟨"11111A", 11111, "不明なバス停", "不明なのりば"⟩, "20:00:00",
          ⟨"22222B", 22222, "不明なバス停", "不明なのりば"⟩⟩ : ApproachPosition))] :
        List (String × ApproachPosition)),
      kr.2.previous_stop.bus_stop_code = kr.1) ∧
    (∀ kr ∈ ([("11111A",
        (⟨"c1", ⟨"11111A", 11111, "不明なバス停", "不明なのりば"⟩, "20:00:00",
          ⟨"22222B", 22222, "不明なバス停", "不明なのりば"⟩⟩ : ApproachPosition))] :
        List (String × ApproachPosition)),
      ∃ i : Nat,
        ([⟨"11111A", 11111, "不明なバス停", "不明なのりば"⟩,
          ⟨"22222B", 22222, "不明なバス停", "不明なのりば"⟩] :
          List ApproachBusStop)[i]? = some kr.2.previous_stop ∧
        ([⟨"11111A", 11111, "不明なバス停", "不明なのりば"⟩,
          ⟨"22222B", 22222, "不明なバス停", "不明なのりば"⟩] :
          List ApproachBusStop)[i + 1]? = some kr.2.next_stop) ∧
    (∀ p ∈ ([⟨"c2", ⟨"11111A", 11111, "不明なバス停", "不明なのりば"⟩, "21:31:00",
          ⟨"22222B", 22222, "不明なバス停", "不明なのりば"⟩⟩] :
        List ApproachPosition),
      ∃ i : Nat,
        ([⟨"11111A", 11111, "不明なバス停", "不明なのりば"⟩,
          ⟨"22222B", 22222, "不明なバス停", "不明なのりば"⟩] :
          List ApproachBusStop)[i]? = some p.previous_stop ∧
        ([⟨"11111A", 11111, "不明なバス停", "不明なのりば"⟩,
          ⟨"22222B", 22222, "不明なバス停", "不明なのりば"⟩] :
          List ApproachBusStop)[i + 1]? = some p.next_stop) :=
  C10_approach_info_invariants ⟨[], []⟩
    ⟨"栄23", "A", "B", "", ["11111A", "22222B"]⟩
    ⟨[("22222/B", [("c1", "20:00:00")])], [("22222/B", [("c2", "21:31:00")])]⟩
    ⟨"栄23", "A発 B行き",
     [⟨"11111A", 11111, "不明なバス停", "不明なのりば"⟩,
      ⟨"22222B", 22222, "不明なバス停", "不明なのりば"⟩],
     [("11111A",
       ⟨"c1", ⟨"11111A", 11111, "不明なバス停", "不明なのりば"⟩, "20:00:00",
        ⟨"22222B", 22222, "不明なバス停", "不明なのりば"⟩⟩)],
     [⟨"c2", ⟨"11111A", 11111, "不明なバス停", "不明なのりば"⟩, "21:31:00",
       ⟨"22222B", 22222, "不明なバス停", "不明なのりば"⟩⟩]⟩
    rfl

/-! ## Station-number lookup tool (claim C6) -/

theorem dedupKeys_mem_iff {y : String} : ∀ {xs : List String},
    y ∈ dedupKeys xs ↔ y ∈ xs := by
  intro xs
  induction xs with
  | nil => simp [dedupKeys]
  | cons x xs ih =>
    simp only [dedupKeys, List.mem_cons, List.mem_filter]
    constructor
    · rintro (rfl | ⟨hy, _⟩)
      · exact Or.inl rfl
      · exact Or.inr (ih.mp hy)
    · rintro (rfl | hy)
      · exact Or.inl rfl
      · by_cases hxy : y = x
        · exact Or.inl hxy
        · exact Or.inr ⟨ih.mpr hy, by simp [hxy]⟩

theorem pickLargest_eq_none_iff {l : List (ℚ × String)} :
    pickLargest l = none ↔ l = [] := by
  cases l with
  | nil => simp [pickLargest]
  | cons p rest =>
    simp only [reduceCtorEq, iff_false]
    intro hcon
    rw [pickLargest] at hcon
    cases hrest : pickLargest rest with
    | none =>
      rw [hrest] at hcon
      exact absurd hcon (by simp)
    | some q =>
      rw [hrest] at hcon
      have hcon' : (if p.1 < q.1 ∨ (p.1 = q.1 ∧ strLt p.2 q.2 = true)
          then some q else some p) = none := hcon
      by_cases hlt : p.1 < q.1 ∨ (p.1 = q.1 ∧ strLt p.2 q.2 = true)
      · rw [if_pos hlt] at hcon'
        exact absurd hcon' (by simp)
      · rw [if_neg hlt] at hcon'
        exact absurd hcon' (by simp)

theorem pickLargest_spec {l : List (ℚ × String)} {p : ℚ × String}
    (h : pickLargest l = some p) : p ∈ l ∧ ∀ q ∈ l, q.1 ≤ p.1 := by
  induction l generalizing p with
  | nil => simp [pickLargest] at h
  | cons r rest ih =>
    rw [pickLargest] at h
    cases hrest : pickLargest rest with
    | none =>
      rw [hrest] at h
      cases h
      have hnil : rest = [] := pickLargest_eq_none_iff.mp hrest
      subst hnil
      exact ⟨List.mem_singleton_self _, by simp⟩
    | some q =>
      rw [hrest] at h
      have h' : (if r.1 < q.1 ∨ (r.1 = q.1 ∧ strLt r.2 q.2 = true)
          then some q else some r) = some p := h
      obtain ⟨hqmem, hqub⟩ := ih hrest
      by_cases hlt : r.1 < q.1 ∨ (r.1 = q.1 ∧ strLt r.2 q.2 = true)
      · rw [if_pos hlt] at h'
        cases h'
        refine ⟨List.mem_cons_of_mem _ hqmem, ?_⟩
        intro x hx
        rcases List.mem_cons.mp hx with rfl | hx'
        · rcases hlt with h' | ⟨h', _⟩
          · exact le_of_lt h'
          · exact le_of_eq h'
        · exact hqub x hx'
      · rw [if_neg hlt] at h'
        cases h'
        refine ⟨List.mem_cons_self _ _, ?_⟩
        intro x hx
        rcases List.mem_cons.mp hx with rfl | hx'
        · exact le_rfl
        · have hqr : q.1 ≤ r.1 := by
            push_neg at hlt
            exact hlt.1
          exact le_trans (hqub x hx') hqr

theorem candidate_lookup_isSome {d : BaseData} {x : String}
    (h : x ∈ d.stationNames.map (·.1)) : ∃ v, dget? d.stationNames x = some v := by
  rw [List.mem_map] at h
  obtain ⟨p, hp, hpx⟩ := h
  exact dget?_isSome_of_mem ⟨p, hp, hpx⟩

theorem find_station_number_some {d : BaseData} {sim : String → String → ℚ}
    {name : String} {cutoff : ℚ} {n : Nat}
    (h : d.find_station_number sim name cutoff = some n) :
    ∃ best ∈ d.stationNames.map (·.1), cutoff ≤ sim best name ∧
      (∀ x ∈ d.stationNames.map (·.1), cutoff ≤ sim x name →
        sim x name ≤ sim best name) ∧
      dget? d.stationNames best = some n := by
  unfold BaseData.find_station_number at h
  cases hpick : pickLargest ((dedupKeys (d.stationNames.map (·.1))).filterMap
      (fun x => if cutoff ≤ sim x name then some (sim x name, x) else none)) with
  | none =>
    rw [hpick] at h
    exact absurd h (by simp)
  | some p =>
    rw [hpick] at h
    obtain ⟨hmem, hub⟩ := pickLargest_spec hpick
    rw [List.mem_filterMap] at hmem
    obtain ⟨x, hx, hfx⟩ := hmem
    by_cases hcx : cutoff ≤ sim x name
    · rw [if_pos hcx] at hfx
      cases hfx
      refine ⟨x, dedupKeys_mem_iff.mp hx, hcx, ?_, h⟩
      intro x' hx' hcx'
      have hscored : (sim x' name, x') ∈
          (dedupKeys (d.stationNames.map (·.1))).filterMap
            (fun x => if cutoff ≤ sim x name then some (sim x name, x) else none) := by
        rw [List.mem_filterMap]
        exact ⟨x', dedupKeys_mem_iff.mpr hx', by rw [if_pos hcx']⟩
      exact hub _ hscored
    · rw [if_neg hcx] at hfx
      exact absurd hfx (by simp)

theorem find_station_number_none_iff {d : BaseData} {sim : String → String → ℚ}
    {name : String} {cutoff : ℚ} :
    d.find_station_number sim name cutoff = none ↔
      ¬ ∃ x ∈ d.stationNames.map (·.1), cutoff ≤ sim x name := by
  unfold BaseData.find_station_number
  cases hpick : pickLargest ((dedupKeys (d.stationNames.map (·.1))).filterMap
      (fun x => if cutoff ≤ sim x name then some (sim x name, x) else none)) with
  | none =>
    simp only [true_iff]
    have hnil := pickLargest_eq_none_iff.mp hpick
    rintro ⟨x, hx, hcx⟩
    have : (sim x name, x) ∈ ([] : List (ℚ × String)) := by
      rw [← hnil, List.mem_filterMap]
      exact ⟨x, dedupKeys_mem_iff.mpr hx, by rw [if_pos hcx]⟩
    simp at this
  | some p =>
    obtain ⟨hmem, _⟩ := pickLargest_spec hpick
    rw [List.mem_filterMap] at hmem
    obtain ⟨x, hx, hfx⟩ := hmem
    by_cases hcx : cutoff ≤ sim x name
    · rw [if_pos hcx] at hfx
      cases hfx
      show dget? d.stationNames x = none ↔ _
      obtain ⟨v, hv⟩ := candidate_lookup_isSome (dedupKeys_mem_iff.mp hx)
      rw [hv]
      simp only [reduceCtorEq, false_iff, not_not]
      exact ⟨x, dedupKeys_mem_iff.mp hx, hcx⟩
    · rw [if_neg hcx] at hfx
      exact absurd hfx (by simp)

theorem optTruthy_some_of_ne {n : Nat} (hn : n ≠ 0) :
    optTruthy (some n) = some n := by
  cases n with
  | zero => exact absurd rfl hn
  | succ m => rfl

theorem table_value_ne_zero {d : BaseData} {k : String} {n : Nat}
    (hpos : ∀ p ∈ d.stationNames, p.2 ≠ 0)
    (h : dget? d.stationNames k = some n) : n ≠ 0 :=
  hpos (k, n) (dget?_mem h)

/-- C6 counterexample — with station table `{"X": 0}` the name `"X"` is in the
table, yet the tool raises `Station not found` because Python's walrus-`if`
treats the looked-up number `0` as falsy (and the fuzzy branch rejects its own
match for the same reason). -/
theorem C6_counterexample :
    dget? ([("X", 0)] : List (String × Nat)) "X" = some 0 ∧
    get_station_number_tool (fun _ _ => 1) ⟨[("X", 0)], []⟩ "X"
      = .error ("Station not found: " ++ "X") := by
  refine ⟨rfl, ?_⟩
  unfold get_station_number_tool
  have h1 : optTruthy (BaseData.get_station_number ⟨[("X", 0)], []⟩ "X") = none := rfl
  rw [h1]
  have hc : ((3 : ℚ) / 5 ≤ 1) := by norm_num
  have h2 : BaseData.find_station_number ⟨[("X", 0)], []⟩
      (fun _ _ => 1) "X" (3 / 5) = some 0 := by
    unfold BaseData.find_station_number
    have hsc : ((dedupKeys (([("X", 0)] : List (String × Nat)).map (·.1))).filterMap
        (fun x => if (3 : ℚ) / 5 ≤ (fun _ _ => (1 : ℚ)) x "X"
          then some ((fun _ _ => (1 : ℚ)) x "X", x) else none)) = [(1, "X")] := by
      show List.filterMap _ ["X"] = [(1, "X")]
      rw [List.filterMap_cons]
      rw [show (if (3 : ℚ) / 5 ≤ (fun _ _ => (1 : ℚ)) "X" "X"
          then some ((fun _ _ => (1 : ℚ)) "X" "X", "X") else none)
        = some (1, "X") from by rw [if_pos hc]]
      rfl
    rw [hsc]
    rfl
  rw [h2]
  rfl

/-- C6 (amended) — provided every station number in the table is nonzero (so
Python truthiness cannot discard a real match): an exact table hit is returned
as-is; otherwise a fuzzy hit is returned with the matched station's number and
its table name; the tool raises `Station not found` exactly when neither an
exact match nor any candidate with similarity ≥ 0.6 exists; and a fuzzy result
is the table value of a best-scoring candidate at cutoff 0.6. -/
theorem C6_get_station_number (sim : String → String → ℚ) (d : BaseData)
    (name : String) (hpos : ∀ p ∈ d.stationNames, p.2 ≠ 0) :
    (∀ n, dget? d.stationNames name = some n →
      get_station_number_tool sim d name = .ok ⟨name, n⟩) ∧
    (dget? d.stationNames name = none →
      ∀ n, d.find_station_number sim name (3 / 5) = some n →
      ∃ name', d.get_station_name n = some name' ∧
        get_station_number_tool sim d name = .ok ⟨name', n⟩) ∧
    (get_station_number_tool sim d name
        = .error ("Station not found: " ++ name) ↔
      (dget? d.stationNames name = none ∧
        ¬ ∃ x ∈ d.stationNames.map (·.1), (3 : ℚ) / 5 ≤ sim x name)) ∧
    (∀ n, d.find_station_number sim name (3 / 5) = some n →
      ∃ best ∈ d.stationNames.map (·.1), (3 : ℚ) / 5 ≤ sim best name ∧
        (∀ x ∈ d.stationNames.map (·.1), (3 : ℚ) / 5 ≤ sim x name →
          sim x name ≤ sim best name) ∧
        dget? d.stationNames best = some n) := by
  have hexact : ∀ n, dget? d.stationNames name = some n →
      get_station_number_tool sim d name = .ok ⟨name, n⟩ := by
    intro n hsome
    have hne := table_value_ne_zero hpos hsome
    unfold get_station_number_tool
    have hl : BaseData.get_station_number d name = some n := hsome
    rw [hl, optTruthy_some_of_ne hne]
  have hfuzzy : dget? d.stationNames name = none →
      ∀ n, d.find_station_number sim name (3 / 5) = some n →
      ∃ name', d.get_station_name n = some name' ∧
        get_station_number_tool sim d name = .ok ⟨name', n⟩ := by
    intro hnone n hfind
    obtain ⟨best, hbest, _, _, hlook⟩ := find_station_number_some hfind
    have hne := table_value_ne_zero hpos hlook
    have hrev : ∃ name', d.get_station_name n = some name' := by
      apply dget?_isSome_of_mem
      refine ⟨(n, best), ?_, rfl⟩
      rw [List.mem_map]
      exact ⟨(best, n), dget?_mem hlook, rfl⟩
    obtain ⟨name', hname'⟩ := hrev
    refine ⟨name', hname', ?_⟩
    unfold get_station_number_tool
    have hl : BaseData.get_station_number d name = none := hnone
    rw [hl]
    show ((match optTruthy (d.find_station_number sim name (3 / 5)) with
      | some n =>
        match d.get_station_name n with
        | none => Except.error "Inconsistent base data: station number has no name"
        | some closest => Except.ok ⟨closest, n⟩
      | none => Except.error ("Station not found: " ++ name)
      : Except String StationNumberResponse)) = _
    rw [hfind, optTruthy_some_of_ne hne]
    show ((match d.get_station_name n with
      | none => Except.error "Inconsistent base data: station number has no name"
      | some closest => Except.ok ⟨closest, n⟩
      : Except String StationNumberResponse)) = _
    rw [hname']
  refine ⟨hexact, hfuzzy, ?_, fun n h => find_station_number_some h⟩
  constructor
  · intro herr
    cases hex : dget? d.stationNames name with
    | some n =>
      rw [hexact n hex] at herr
      exact absurd herr (by simp)
    | none =>
      cases hfind : d.find_station_number sim name (3 / 5) with
      | some n =>
        obtain ⟨name', _, hok⟩ := hfuzzy hex n hfind
        rw [hok] at herr
        exact absurd herr (by simp)
      | none => exact ⟨rfl, find_station_number_none_iff.mp hfind⟩
  · rintro ⟨hnone, hnocand⟩
    have hfind : d.find_station_number sim name (3 / 5) = none :=
      find_station_number_none_iff.mpr hnocand
    unfold get_station_number_tool
    have hl : BaseData.get_station_number d name = none := hnone
    rw [hl]
    show ((match optTruthy (d.find_station_number sim name (3 / 5)) with
      | some n =>
        match d.get_station_name n with
        | none => Except.error "Inconsistent base data: station number has no name"
        | some closest => Except.ok ⟨closest, n⟩
      | none => Except.error ("Station not found: " ++ name)
      : Except String StationNumberResponse)) = _
    rw [hfind]
    rfl

/-- C6 witness: the amended theorem on the table `{"名古屋駅": 41200}` with a
similarity function scoring 1; the exact query returns the table entry. -/
theorem C6_get_station_number_witness :
    get_station_number_tool (fun _ _ => 1) ⟨[("名古屋駅", 41200)], []⟩ "名古屋駅"
      = .ok ⟨"名古屋駅", 41200⟩ :=
  (C6_get_station_number (fun _ _ => 1) ⟨[("名古屋駅", 41200)], []⟩ "名古屋駅"
    (by decide)).1 41200 rfl

/-! ## Station aggregation: filter and proximity sort (claim C5) -/

theorem getIndexForCodeAux_lt {code : String} {stops : List ApproachBusStop}
    {t : Nat} (h : getIndexForCodeAux code stops = some t) : t < stops.length := by
  obtain ⟨b, hb, _⟩ := getIndexForCodeAux_some h
  exact (List.getElem?_eq_some_iff.mp hb).1

theorem collectPositionsBefore_props {stops : List ApproachBusStop} {t : Nat} :
    ∀ {ps : List ApproachPosition} {l : List (Nat × ApproachPosition)},
      collectPositionsBefore stops t ps = .ok l →
      ∀ np ∈ l, ∃ i, i < t ∧ np.1 = t - i := by
  intro ps
  induction ps with
  | nil =>
    intro l h np hnp
    cases h
    simp at hnp
  | cons p ps ih =>
    intro l h np hnp
    unfold collectPositionsBefore at h
    cases hidx : listIndex? stops p.previous_stop with
    | none =>
      rw [hidx] at h
      exact absurd h (by simp)
    | some i =>
      rw [hidx] at h
      cases hrec : collectPositionsBefore stops t ps with
      | error e =>
        rw [hrec] at h
        exact absurd h (by simp)
      | ok l' =>
        rw [hrec] at h
        have h' : Except.ok (if i < t then (t - i, p) :: l' else l')
            = Except.ok l := h
        by_cases hit : i < t
        · rw [if_pos hit] at h'
          cases h'
          rcases List.mem_cons.mp hnp with rfl | hnp'
          · exact ⟨i, hit, rfl⟩
          · exact ih hrec np hnp'
        · rw [if_neg hit] at h'
          cases h'
          exact ih hrec np hnp

theorem currentPositions_count_lt {info : ApproachInfo} {code : String}
    {ps : List (Nat × ApproachPosition)}
    (h : info.get_current_positions_before_code code = .ok ps) :
    ∀ np ∈ ps, np.1 < info.bus_stops.length := by
  unfold ApproachInfo.get_current_positions_before_code at h
  cases hidx : info.get_index_for_code code with
  | none =>
    rw [hidx] at h
    cases h
    simp
  | some t =>
    rw [hidx] at h
    intro np hnp
    obtain ⟨i, hit, hcount⟩ := collectPositionsBefore_props h np hnp
    have ht : t < info.bus_stops.length := getIndexForCodeAux_lt hidx
    omega

theorem foldl_min_le_init (ps : List (Nat × ApproachPosition)) (a : Nat) :
    ps.foldl (fun k p => min k p.1) a ≤ a := by
  induction ps generalizing a with
  | nil => exact le_rfl
  | cons p ps ih =>
    rw [List.foldl_cons]
    exact le_trans (ih _) (min_le_left _ _)

theorem foldl_min_le_of_mem {ps : List (Nat × ApproachPosition)}
    {np : Nat × ApproachPosition} (h : np ∈ ps) (a : Nat) :
    ps.foldl (fun k p => min k p.1) a ≤ np.1 := by
  induction ps generalizing a with
  | nil => simp at h
  | cons p ps ih =>
    rw [List.foldl_cons]
    rcases List.mem_cons.mp h with rfl | h'
    · exact le_trans (foldl_min_le_init _ _) (min_le_right _ _)
    · exact ih h' _

theorem processStationRoute_some_props {s : Nat} {rc pc : String}
    {info : ApproachInfo} {k : Nat} {r : ApproachForStationRoute}
    (h : processStationRoute s rc pc info = .ok (some (k, r)))
    (hlenb : info.bus_stops.length ≤ MAX_SORT_KEY) :
    ¬ (r.last_pass_time = none ∧ r.approaching_buses = []) ∧
      (r.approaching_buses = [] ↔ k = MAX_SORT_KEY) ∧ k ≤ MAX_SORT_KEY := by
  unfold processStationRoute at h
  cases hc : info.get_current_positions_before_code
      (stationBusStopCode s pc) with
  | error e =>
    rw [hc] at h
    exact absurd h (by simp)
  | ok ps =>
    rw [hc] at h
    have h' : (if info.get_last_pass_time_for_code (stationBusStopCode s pc) = none ∧
          ps.map approachingBusOf = []
        then (Except.ok none : Except PyErr (Option (Nat × ApproachForStationRoute)))
        else Except.ok (some (ps.foldl (fun k p => min k p.1) MAX_SORT_KEY,
          { route := info.route
            route_code := rc
            direction := info.direction
            pole := match info.get_bus_stop_for_code (stationBusStopCode s pc) with
                    | some b => b.pole
                    | none => "不明なのりば"
            last_pass_time :=
              info.get_last_pass_time_for_code (stationBusStopCode s pc)
            approaching_buses := ps.map approachingBusOf })))
        = .ok (some (k, r)) := h
    by_cases hcond : info.get_last_pass_time_for_code (stationBusStopCode s pc)
        = none ∧ ps.map approachingBusOf = []
    · rw [if_pos hcond] at h'
      exact absurd h' (by simp)
    · rw [if_neg hcond] at h'
      cases h'
      refine ⟨hcond, ?_, foldl_min_le_init ps _⟩
      constructor
      · intro hb
        have hps : ps = [] := List.map_eq_nil_iff.mp hb
        rw [hps]
        rfl
      · intro hk
        by_contra hbne
        have hpsne : ps ≠ [] := by
          intro hps
          rw [hps] at hbne
          exact hbne rfl
        obtain ⟨np, hnp⟩ := List.exists_mem_of_ne_nil ps hpsne
        have hlt : np.1 < info.bus_stops.length := currentPositions_count_lt hc np hnp
        have hle := foldl_min_le_of_mem hnp MAX_SORT_KEY
        omega

theorem collectStationRoutes_mem {s : Nat} :
    ∀ {entries : List (String × String × ApproachInfo)}
      {collected : List (Nat × ApproachForStationRoute)},
      collectStationRoutes s entries = .ok collected →
      ∀ x, x ∈ collected ↔
        ∃ e ∈ entries, processStationRoute s e.1 e.2.1 e.2.2 = .ok (some x) := by
  intro entries
  induction entries with
  | nil =>
    intro collected h x
    cases h
    simp
  | cons e es ih =>
    intro collected h x
    unfold collectStationRoutes at h
    cases hpr : processStationRoute s e.1 e.2.1 e.2.2 with
    | error err =>
      rw [hpr] at h
      exact absurd h (by simp)
    | ok o =>
      rw [hpr] at h
      cases o with
      | none =>
        have h' : collectStationRoutes s es = .ok collected := h
        rw [ih h' x]
        constructor
        · rintro ⟨e', he', hx⟩
          exact ⟨e', List.mem_cons_of_mem _ he', hx⟩
        · rintro ⟨e', he', hx⟩
          rcases List.mem_cons.mp he' with rfl | he''
          · rw [hpr] at hx
            exact absurd hx (by simp)
          · exact ⟨e', he'', hx⟩
      | some kr =>
        cases hrec : collectStationRoutes s es with
        | error err =>
          rw [hrec] at h
          exact absurd h (by simp)
        | ok l =>
          rw [hrec] at h
          cases h
          constructor
          · intro hx
            rcases List.mem_cons.mp hx with rfl | hx'
            · exact ⟨e, List.mem_cons_self _ _, hpr⟩
            · obtain ⟨e', he', hpe⟩ := (ih hrec x).mp hx'
              exact ⟨e', List.mem_cons_of_mem _ he', hpe⟩
          · rintro ⟨e', he', hx⟩
            rcases List.mem_cons.mp he' with rfl | he''
            · rw [hpr] at hx
              have : some kr = some x := (Except.ok.injEq _ _).mp hx
              cases this
              exact List.mem_cons_self _ _
            · exact List.mem_cons_of_mem _ ((ih hrec x).mpr ⟨e', he'', hx⟩)

/-- C5 — the (route, pole) entries surviving `get_approach_for_station`:
entries with neither a last-pass time nor an approaching bus are dropped; the
survivors are exactly the non-dropped processed entries; they are sorted
ascending by their proximity key; an entry's key is the sentinel
`_MAX_SORT_KEY` exactly when it has no approaching bus (stop sequences being
shorter than the sentinel); hence every entry with an approaching bus precedes
every entry without one; the tool's final list is the sorted survivors with
keys dropped. -/
theorem C5_station_aggregation (s : Nat)
    (entries : List (String × String × ApproachInfo))
    (keyed : List (Nat × ApproachForStationRoute))
    (hok : stationApproachesKeyed s entries = .ok keyed)
    (hlen : ∀ e ∈ entries, e.2.2.bus_stops.length ≤ MAX_SORT_KEY) :
    (∀ x ∈ keyed, ¬ (x.2.last_pass_time = none ∧ x.2.approaching_buses = [])) ∧
    keyed.Pairwise (fun a b => a.1 ≤ b.1) ∧
    (∀ x ∈ keyed, (x.2.approaching_buses = [] ↔ x.1 = MAX_SORT_KEY)) ∧
    keyed.Pairwise
      (fun a b => b.2.approaching_buses ≠ [] → a.2.approaching_buses ≠ []) ∧
    (∀ x, x ∈ keyed ↔
      ∃ e ∈ entries, processStationRoute s e.1 e.2.1 e.2.2 = .ok (some x)) ∧
    get_approach_for_station_routes s entries = .ok (keyed.map (·.2)) := by
  unfold stationApproachesKeyed at hok
  cases hcol : collectStationRoutes s entries with
  | error e =>
    rw [hcol] at hok
    exact absurd hok (by simp)
  | ok collected =>
    rw [hcol] at hok
    have hkeyed : keyed = List.insertionSort (fun a b => a.1 ≤ b.1) collected := by
      have := (Except.ok.injEq _ _).mp hok
      exact this.symm
    have hperm : (List.insertionSort (fun a b => a.1 ≤ b.1) collected).Perm
        collected := List.perm_insertionSort _ _
    have hmem : ∀ x, x ∈ keyed ↔
        ∃ e ∈ entries, processStationRoute s e.1 e.2.1 e.2.2 = .ok (some x) := by
      intro x
      rw [hkeyed, hperm.mem_iff]
      exact collectStationRoutes_mem hcol x
    have hprops : ∀ x ∈ keyed,
        ¬ (x.2.last_pass_time = none ∧ x.2.approaching_buses = []) ∧
        (x.2.approaching_buses = [] ↔ x.1 = MAX_SORT_KEY) ∧ x.1 ≤ MAX_SORT_KEY := by
      intro x hx
      obtain ⟨e, he, hpe⟩ := (hmem x).mp hx
      exact processStationRoute_some_props (k := x.1) (r := x.2) hpe (hlen e he)
    haveI : IsTotal (Nat × ApproachForStationRoute) (fun a b => a.1 ≤ b.1) :=
      ⟨fun a b => le_total a.1 b.1⟩
    haveI : IsTrans (Nat × ApproachForStationRoute) (fun a b => a.1 ≤ b.1) :=
      ⟨fun a b c hab hbc => le_trans hab hbc⟩
    have hsorted : keyed.Pairwise (fun a b => a.1 ≤ b.1) := by
      rw [hkeyed]
      exact List.sorted_insertionSort _ _
    refine ⟨fun x hx => (hprops x hx).1, hsorted,
      fun x hx => (hprops x hx).2.1, ?_, hmem, ?_⟩
    · have himp : ∀ a b, a ∈ keyed → b ∈ keyed → a.1 ≤ b.1 →
          (b.2.approaching_buses ≠ [] → a.2.approaching_buses ≠ []) := by
        intro a b ha hb hab hbne hae
        have hamax : a.1 = MAX_SORT_KEY := ((hprops a ha).2.1).mp hae
        have hble : b.1 ≤ MAX_SORT_KEY := (hprops b hb).2.2
        have hbmax : b.1 = MAX_SORT_KEY := by omega
        exact hbne (((hprops b hb).2.1).mpr hbmax)
      exact List.Pairwise.imp_of_mem
        (fun ha hb hab => himp _ _ ha hb hab) hsorted
    · unfold get_approach_for_station_routes stationApproachesKeyed
      rw [hcol]
      rw [hkeyed]
      rfl

/-- C5 witness: two concrete entries — one route with an approaching bus one
stop away, one with only a last-pass time — the latter keeps the sentinel key
and sorts last. -/
theorem C5_station_aggregation_witness :
    (∀ x ∈ [((1 : Nat),
        (⟨"R1", "r1", "D1", "P", none,
          [⟨"1停前を通過", "S1", "10:00:00"⟩]⟩ : ApproachForStationRoute)),
      (MAX_SORT_KEY,
        (⟨"R2", "r2", "D2", "P", some "09:00:00", []⟩ : ApproachForStationRoute))],
      ¬ (x.2.last_pass_time = none ∧ x.2.approaching_buses = [])) ∧
    ([((1 : Nat),
        (⟨"R1", "r1", "D1", "P", none,
          [⟨"1停前を通過", "S1", "10:00:00"⟩]⟩ : ApproachForStationRoute)),
      (MAX_SORT_KEY,
        (⟨"R2", "r2", "D2", "P", some "09:00:00", []⟩ : ApproachForStationRoute))].Pairwise
      (fun a b => a.1 ≤ b.1)) := by
  have h := C5_station_aggregation 123
    [("r1", "A",
      ⟨"R1", "D1",
       [⟨"11111B", 11111, "S1", "P"⟩, ⟨"00123A", 123, "S2", "P"⟩], [],
       [⟨"car", ⟨"11111B", 11111, "S1", "P"⟩, "10:00:00",
         ⟨"00123A", 123, "S2", "P"⟩⟩]⟩),
     ("r2", "A",
      ⟨"R2", "D2", [⟨"00123A", 123, "S2", "P"⟩],
       [("00123A",
         ⟨"car2", ⟨"00123A", 123, "S2", "P"⟩, "09:00:00",
          ⟨"00123A", 123, "S2", "P"⟩⟩)], []⟩)]
    [((1 : Nat),
      ⟨"R1", "r1", "D1", "P", none, [⟨"1停前を通過", "S1", "10:00:00"⟩]⟩),
     (MAX_SORT_KEY, ⟨"R2", "r2", "D2", "P", some "09:00:00", []⟩)]
    rfl (by decide)
  exact ⟨h.1, h.2.1⟩

end NagoyaBus
